import Mathlib

/-
Verification of the analytics derivation layer of the habitTracker
repository (src/lib/analytics.ts and the day aggregator in
src/components/Analytics.tsx), as a shallow embedding in Lean 4.

Modelling conventions:
* ISO date strings of the form YYYY-MM-DD are modelled by the CalDate
  structure (parseISO of such a string yields the local midnight of that
  calendar day, so a record date is the instant with millisecond 0).
* JavaScript Date instants are modelled by Instant: a calendar day plus
  the milliseconds elapsed within that day.  Instant comparison
  (getTime order) is lexicographic on (calendar day, time of day).
* JavaScript numbers are modelled by the rationals; Math.round is
  Mathlib's round, which rounds half up exactly as Math.round does.
* In-place mutation of an input array (Array.prototype.sort) is made
  explicit: the affected function returns both its result and the
  final contents of its input array.
-/

/-- Calendar date (year, month 1-12, day 1-31), the model of a parsed
YYYY-MM-DD date string. -/
structure CalDate where
  year : Int
  month : Nat
  day : Nat
deriving DecidableEq, Repr

/-- Leap-year test of the Gregorian calendar. -/
def isLeapYear (y : Int) : Bool :=
  (y % 4 == 0 && y % 100 != 0) || y % 400 == 0

/-- Number of days in a month of a given year (0 for an invalid month
number). -/
def daysInMonth (y : Int) (m : Nat) : Nat :=
  match m with
  | 1 => 31
  | 2 => if isLeapYear y then 29 else 28
  | 3 => 31
  | 4 => 30
  | 5 => 31
  | 6 => 30
  | 7 => 31
  | 8 => 31
  | 9 => 30
  | 10 => 31
  | 11 => 30
  | 12 => 31
  | _ => 0

/-- Validity of a calendar date. -/
def ValidDate (d : CalDate) : Prop :=
  1 ≤ d.month ∧ d.month ≤ 12 ∧ 1 ≤ d.day ∧ d.day ≤ daysInMonth d.year d.month

instance : DecidablePred ValidDate := fun d => by
  unfold ValidDate; exact inferInstance

/-- Strict chronological order on calendar days: lexicographic on
(year, month, day).  For valid dates this is exactly the order of the
corresponding JavaScript Date instants. -/
def dateLt (a b : CalDate) : Prop :=
  a.year < b.year ∨
    (a.year = b.year ∧ (a.month < b.month ∨ (a.month = b.month ∧ a.day < b.day)))

/-- Chronological order (less or equal) on calendar days. -/
def dateLe (a b : CalDate) : Prop :=
  a.year < b.year ∨
    (a.year = b.year ∧ (a.month < b.month ∨ (a.month = b.month ∧ a.day ≤ b.day)))

instance : DecidableRel dateLt := fun a b => by
  unfold dateLt; exact inferInstance

instance : DecidableRel dateLe := fun a b => by
  unfold dateLe; exact inferInstance

/-- Instant of time: a calendar day together with the number of
milliseconds elapsed within that day.  Models a JavaScript Date value. -/
structure Instant where
  day : CalDate
  msOfDay : Nat
deriving DecidableEq, Repr

/-- Chronological order of instants (the order of getTime values):
lexicographic on (calendar day, time within the day). -/
def instantLt (a b : Instant) : Prop :=
  dateLt a.day b.day ∨ (a.day = b.day ∧ a.msOfDay < b.msOfDay)

instance : DecidableRel instantLt := fun a b => by
  unfold instantLt; exact inferInstance

/-- Embedding of the date-fns isAfter predicate: isAfter a b holds when
instant a is strictly later than instant b. -/
def isAfter (a b : Instant) : Prop := instantLt b a

instance : ∀ a b : Instant, Decidable (isAfter a b) := fun a b => by
  unfold isAfter; exact inferInstance

/-- Instant of the local midnight of a calendar day; the value of
parseISO on a YYYY-MM-DD string. -/
def midnightOf (d : CalDate) : Instant := ⟨d, 0⟩

/-- Embedding of date-fns subMonths on the calendar-day part: move the
month index back by n, clamping the day-of-month into the target month. -/
def subMonthsDate (d : CalDate) (n : Nat) : CalDate :=
  let idx : Int := d.year * 12 + (d.month : Int) - 1 - (n : Int)
  let y := idx.fdiv 12
  let m := (idx.emod 12).toNat + 1
  ⟨y, m, min d.day (daysInMonth y m)⟩

/-- Embedding of date-fns subMonths on instants: the calendar day moves
back by n months and the time of day is kept. -/
def subMonths (i : Instant) (n : Nat) : Instant :=
  ⟨subMonthsDate i.day n, i.msOfDay⟩

/-- Calendar day immediately before a given day. -/
def prevCalendarDay (d : CalDate) : CalDate :=
  if 1 < d.day then ⟨d.year, d.month, d.day - 1⟩
  else if 1 < d.month then ⟨d.year, d.month - 1, daysInMonth d.year (d.month - 1)⟩
  else ⟨d.year - 1, 12, 31⟩

/-- Serial day number of a calendar date (days since 1970-01-01), by the
standard civil-from-days algorithm.  Used to embed the week arithmetic
of date-fns (startOfWeek, endOfWeek, getDay). -/
def daysFromCivil (d : CalDate) : Int :=
  let y : Int := if d.month ≤ 2 then d.year - 1 else d.year
  let era : Int := (if 0 ≤ y then y else y - 399).tdiv 400
  let yoe : Int := y - era * 400
  let mp : Int := if 2 < d.month then (d.month : Int) - 3 else (d.month : Int) + 9
  let doy : Int := (153 * mp + 2).tdiv 5 + (d.day : Int) - 1
  let doe : Int := yoe * 365 + yoe.tdiv 4 - yoe.tdiv 100 + doy
  era * 146097 + doe - 719468

/-- Calendar date of a serial day number (inverse of daysFromCivil), by
the standard days-from-civil algorithm. -/
def civilFromDays (z0 : Int) : CalDate :=
  let z : Int := z0 + 719468
  let era : Int := (if 0 ≤ z then z else z - 146096).tdiv 146097
  let doe : Nat := (z - era * 146097).toNat
  let yoe : Nat := (doe - doe / 1460 + doe / 36524 - doe / 146096) / 365
  let y : Int := (yoe : Int) + era * 400
  let doy : Nat := doe - (365 * yoe + yoe / 4 - yoe / 100)
  let mp : Nat := (5 * doy + 2) / 153
  let d : Nat := doy - (153 * mp + 2) / 5 + 1
  let m : Nat := if mp < 10 then mp + 3 else mp - 9
  ⟨if m ≤ 2 then y + 1 else y, m, d⟩

/-- Day of the week of a calendar date as JavaScript getDay reports it:
0 is Sunday through 6 is Saturday. -/
def jsDayOfWeek (d : CalDate) : Nat :=
  ((daysFromCivil d + 4).emod 7).toNat

/-- Serial day number of the Sunday starting the calendar week that
contains the given date (the date-fns default week start). -/
def weekStartNum (d : CalDate) : Int :=
  daysFromCivil d - (jsDayOfWeek d : Int)

/-- Calendar date of the Sunday starting the week of d; embedding of
date-fns startOfWeek. -/
def startOfWeekDate (d : CalDate) : CalDate :=
  civilFromDays (weekStartNum d)

/-- Calendar date of the Saturday ending the week of d; embedding of the
calendar-day part of date-fns endOfWeek. -/
def endOfWeekDate (d : CalDate) : CalDate :=
  civilFromDays (weekStartNum d + 6)

/-- Three-letter English month abbreviation, as the MMM format token of
date-fns produces. -/
def monthAbbrev : Nat → String
  | 1 => "Jan"
  | 2 => "Feb"
  | 3 => "Mar"
  | 4 => "Apr"
  | 5 => "May"
  | 6 => "Jun"
  | 7 => "Jul"
  | 8 => "Aug"
  | 9 => "Sep"
  | 10 => "Oct"
  | 11 => "Nov"
  | 12 => "Dec"
  | _ => ""

/-- Two-digit zero-padded decimal rendering of a day number, as the dd
format token of date-fns produces. -/
def pad2 (n : Nat) : String :=
  if n < 10 then "0" ++ toString n else toString n

/-- Embedding of format(date, "MMM dd") of date-fns. -/
def formatMMMdd (d : CalDate) : String :=
  monthAbbrev d.month ++ " " ++ pad2 d.day

/-- Habit entry of an analytics day record (interface Habit of
src/lib/analytics.ts). -/
structure Habit where
  id : String
  name : String
  completed : Bool
deriving DecidableEq, Repr

/-- Achievement tier of a day (the string union type of
src/lib/analytics.ts). -/
inductive Achievement where
  | gold
  | silver
  | bronze
  | failed
deriving DecidableEq, Repr

/-- Analytics day record (interface DayRecord of src/lib/analytics.ts).
The completionRate number is modelled by a rational; the optional
timestamp field is never read by any analytics function. -/
structure DayRecord where
  date : CalDate
  completionRate : ℚ
  achievement : Achievement
  habits : List Habit
  timestamp : Option ℚ
deriving DecidableEq, Repr

/-- Per-habit streak statistics (interface StreakData of
src/lib/analytics.ts). -/
structure StreakData where
  habitId : String
  habitName : String
  currentStreak : Nat
  longestStreak : Nat
deriving DecidableEq, Repr

/-- Completion trend point (interface CompletionTrend of
src/lib/analytics.ts); the date is the formatted MMM dd display date. -/
structure CompletionTrend where
  date : String
  completionRate : ℚ
  achievement : Achievement
deriving DecidableEq, Repr

/-- Week bucket row (interface MonthlyPattern of src/lib/analytics.ts). -/
structure MonthlyPattern where
  week : String
  averageCompletion : ℚ
  totalDays : Nat
deriving DecidableEq, Repr

/-- Result record of getOverallStats. -/
structure OverallStats where
  totalDays : Nat
  averageCompletion : ℚ
  goldDays : Nat
  silverDays : Nat
  bronzeDays : Nat
  failedDays : Nat
deriving DecidableEq, Repr

/-- Time window of the analytics period selector (the string union
1month, 6months, 1year of src/lib/analytics.ts). -/
inductive Period where
  | oneMonth
  | sixMonths
  | oneYear
deriving DecidableEq, Repr

/-- Number of calendar months subtracted for each period, the switch
statement of getFilteredRecords (the default branch of the switch is
unreachable because the period argument is exactly this union type). -/
def monthsOfPeriod : Period → Nat
  | .oneMonth => 1
  | .sixMonths => 6
  | .oneYear => 12

/-- Embedding of getFilteredRecords of src/lib/analytics.ts.  The
current wall-clock instant, read in the source by new Date(), is an
explicit parameter.  A record is kept when its parsed date is strictly
after the start instant or falls on the same calendar day as the start
instant (the toDateString comparison). -/
def getFilteredRecords (records : List DayRecord) (period : Period) (now : Instant) :
    List DayRecord :=
  let startDate := subMonths now (monthsOfPeriod period)
  records.filter (fun record =>
    decide (isAfter (midnightOf record.date) startDate) || decide (record.date = startDate.day))

/-- Record-level comparison used by the date sorts of calculateStreaks
and getCompletionTrends: ascending by the getTime value of the parsed
record date. -/
def recordLe (a b : DayRecord) : Prop := dateLe a.date b.date

instance : DecidableRel recordLe := fun a b => by
  unfold recordLe; exact inferInstance

/-- Stable ascending-by-date sort of a record list; embedding of the
sort by getTime difference used in src/lib/analytics.ts. -/
def sortRecordsByDate (records : List DayRecord) : List DayRecord :=
  List.insertionSort recordLe records

/-- Completion flag of one habit in one day record, as calculateStreaks
reads it: the found entry's flag or false when the habit has no entry. -/
def habitCompletedIn (r : DayRecord) (hid : String) : Bool :=
  match r.habits.find? (fun h => h.id == hid) with
  | some h => h.completed
  | none => false

/-- Embedding of JavaScript Map.prototype.set on an association list:
an existing key keeps its position and gets the new value, a new key is
appended at the end. -/
def mapSet (m : List (String × String)) (k v : String) : List (String × String) :=
  match m with
  | [] => [(k, v)]
  | (k', v') :: rest =>
    if k' = k then (k, v) :: rest else (k', v') :: mapSet rest k v

/-- Habit universe of calculateStreaks: every (id, name) pair seen in
any record is entered into a Map in scan order, so each id appears once
at its first-seen position and carries its last-seen name. -/
def habitUniverse (records : List DayRecord) : List (String × String) :=
  records.foldl (fun m r => r.habits.foldl (fun m' h => mapSet m' h.id h.name) m) []

/-- Streak scan of calculateStreaks.  The list argument holds the
completion flags in most-recent-first order (the source iterates the
date-sorted records from the last index down to 0); first is true only
while the first element, the most recent day, is being processed.  The
result is the pair (currentStreak, longestStreak) including the final
max against the trailing tempStreak. -/
def streakLoop (first : Bool) (cur lng tmp : Nat) : List Bool → Nat × Nat
  | [] => (cur, max lng tmp)
  | b :: rest =>
    if b then streakLoop false (if first then tmp + 1 else cur) lng (tmp + 1) rest
    else streakLoop false (if first then 0 else cur) (max lng tmp) 0 rest

/-- Streak pair of one habit over the date-sorted records. -/
def habitStreaks (sorted : List DayRecord) (hid : String) : Nat × Nat :=
  streakLoop true 0 0 0 ((sorted.map (fun r => habitCompletedIn r hid)).reverse)

/-- Embedding of calculateStreaks of src/lib/analytics.ts. -/
def calculateStreaks (records : List DayRecord) : List StreakData :=
  if records.isEmpty then []
  else
    let sorted := sortRecordsByDate records
    (habitUniverse records).map (fun p =>
      let s := habitStreaks sorted p.1
      { habitId := p.1, habitName := p.2, currentStreak := s.1, longestStreak := s.2 })

/-- Embedding of getCompletionTrends of src/lib/analytics.ts.  The
source calls records.sort directly, which sorts the caller's array in
place; the second component of the result is therefore the content of
the input array after the call. -/
def getCompletionTrends (records : List DayRecord) :
    List CompletionTrend × List DayRecord :=
  let sorted := sortRecordsByDate records
  (sorted.map (fun r =>
      { date := formatMMMdd r.date, completionRate := r.completionRate,
        achievement := r.achievement }),
    sorted)

/-- Week-bucket upsert of getMonthlyPatterns: a missing key is appended
with a fresh zero accumulator and the record's rate and count are then
added; an existing key accumulates in place. -/
def upsertWeek (m : List (String × ℚ × Nat)) (k : String) (rate : ℚ) :
    List (String × ℚ × Nat) :=
  match m with
  | [] => [(k, rate, 1)]
  | (k', t, c) :: rest =>
    if k' = k then (k', t + rate, c + 1) :: rest
    else (k', t, c) :: upsertWeek rest k rate

/-- Week key of a record date in getMonthlyPatterns: the MMM dd
rendering of the Sunday starting its week, a dash, and the MMM dd
rendering of the Saturday ending its week.  The year is not part of
the key. -/
def weekKey (d : CalDate) : String :=
  formatMMMdd (startOfWeekDate d) ++ " - " ++ formatMMMdd (endOfWeekDate d)

/-- Embedding of getMonthlyPatterns of src/lib/analytics.ts. -/
def getMonthlyPatterns (records : List DayRecord) : List MonthlyPattern :=
  (records.foldl (fun m r => upsertWeek m (weekKey r.date) r.completionRate) []).map
    (fun e =>
      { week := e.1,
        averageCompletion := if 0 < e.2.2 then e.2.1 / (e.2.2 : ℚ) else 0,
        totalDays := e.2.2 })

/-- Reducer step of the achievement tally of getOverallStats: the
counter selected by the record's achievement is incremented.  The
accumulator is the tuple (gold, silver, bronze, failed). -/
def achStep (acc : Nat × Nat × Nat × Nat) (r : DayRecord) : Nat × Nat × Nat × Nat :=
  match r.achievement with
  | .gold => (acc.1 + 1, acc.2.1, acc.2.2.1, acc.2.2.2)
  | .silver => (acc.1, acc.2.1 + 1, acc.2.2.1, acc.2.2.2)
  | .bronze => (acc.1, acc.2.1, acc.2.2.1 + 1, acc.2.2.2)
  | .failed => (acc.1, acc.2.1, acc.2.2.1, acc.2.2.2 + 1)

/-- Achievement tally of getOverallStats, the reduce that increments
one of the four counters per record. -/
def countAchievements (records : List DayRecord) : Nat × Nat × Nat × Nat :=
  records.foldl achStep (0, 0, 0, 0)

/-- Embedding of getOverallStats of src/lib/analytics.ts. -/
def getOverallStats (records : List DayRecord) : OverallStats :=
  if records.isEmpty then
    { totalDays := 0, averageCompletion := 0, goldDays := 0, silverDays := 0,
      bronzeDays := 0, failedDays := 0 }
  else
    let a := countAchievements records
    let totalCompletion := records.foldl (fun sum r => sum + r.completionRate) 0
    { totalDays := records.length,
      averageCompletion := totalCompletion / (records.length : ℚ),
      goldDays := a.1, silverDays := a.2.1, bronzeDays := a.2.2.1,
      failedDays := a.2.2.2 }

/-- Habit row of the habit list loaded from the store, as the day
aggregator of src/components/Analytics.tsx reads it (only the id and
name fields are used there). -/
structure HabitInfo where
  id : String
  name : String
deriving DecidableEq, Repr

/-- Raw per-habit completion entry of one date of the records map. -/
structure RawRecord where
  completed : Bool
  timestamp : String
deriving DecidableEq, Repr

/-- Day habit list of the aggregator: one entry per habit of the full
current habit list, completed when that habit has an entry for the date
with a true flag and false otherwise (including when the habit has no
entry at all). -/
def buildDayHabits (habits : List HabitInfo) (dayMap : List (String × RawRecord)) :
    List Habit :=
  habits.map (fun habit =>
    match dayMap.lookup habit.id with
    | some rec => { id := habit.id, name := habit.name, completed := rec.completed }
    | none => { id := habit.id, name := habit.name, completed := false })

/-- Round half to even on the rationals: the rounding applied after each
IEEE-754 binary64 operation (the default rounding mode, the one
JavaScript arithmetic uses). -/
def rhe (x : ℚ) : ℤ :=
  if Int.fract x = 1/2 then (if 2 ∣ ⌊x⌋ then ⌊x⌋ else ⌊x⌋ + 1) else round x

/-- Rounding of a rational to the nearest IEEE-754 binary64 value, for
arguments in the positive normal finite range: the significand is the
argument scaled into [2^52, 2^53) and rounded half to even, and the
result is that 53-bit integer scaled back.  Nonpositive arguments (only
0 arises in this development, and 0 is exactly representable) are
returned unchanged.  Each double-precision operation is modelled as the
exact rational operation followed by fl64; the operands the aggregator
feeds in (habit counts below 2^32 and the literal 100) are themselves
exactly representable, and every intermediate value stays far inside
the normal range, so this models the binary64 computation exactly. -/
def fl64 (x : ℚ) : ℚ :=
  if x ≤ 0 then x
  else ((rhe (x * (2:ℚ) ^ ((52:ℤ) - Int.log 2 x))) : ℚ) * (2:ℚ) ^ (Int.log 2 x - (52:ℤ))

/-- Completion rate of the aggregator: Math.round of the IEEE-754
double-precision evaluation of (completedCount / totalHabits) * 100
when the habit list is non-empty and 0 otherwise.  The division and
the multiplication each round to binary64 (fl64); Math.round (half up,
modelled by Mathlib round) is exact on the double it receives. -/
def rawCompletionRate (completedCount totalHabits : Nat) : ℚ :=
  if 0 < totalHabits then
    ((round (fl64 (fl64 ((completedCount : ℚ) / (totalHabits : ℚ)) * 100)) : ℤ) : ℚ)
  else 0

/-- Achievement tiering of the aggregator in src/components/Analytics.tsx:
100 percent is gold, at least 50 is silver, above 0 is bronze, else
failed. -/
def achievementOf (completionRate : ℚ) : Achievement :=
  if completionRate = 100 then .gold
  else if 50 ≤ completionRate then .silver
  else if 0 < completionRate then .bronze
  else .failed

/-- Embedding of convertToAnalyticsFormat of src/components/Analytics.tsx
(the Day Aggregator): the raw records map is the list of its
(date, day map) entries in object iteration order. -/
def convertToAnalyticsFormat (habits : List HabitInfo)
    (records : List (CalDate × List (String × RawRecord))) : List DayRecord :=
  records.map (fun e =>
    let dayHabits := buildDayHabits habits e.2
    let completedCount := (dayHabits.filter (fun h => h.completed)).length
    let totalHabits := dayHabits.length
    let completionRate := rawCompletionRate completedCount totalHabits
    { date := e.1, completionRate := completionRate,
      achievement := achievementOf completionRate,
      habits := dayHabits, timestamp := none })

/-- Length of the leading run of true flags of a boolean list. -/
def leadTrue : List Bool → Nat
  | [] => 0
  | b :: rest => if b then leadTrue rest + 1 else 0

/-- Maximum length of a contiguous run of true flags of a boolean list. -/
def runsMax : List Bool → Nat
  | [] => 0
  | b :: rest => if b then max (leadTrue rest + 1) (runsMax rest) else runsMax rest

/-- Statement that a boolean list contains a contiguous run of n true
flags. -/
def hasTrueRun (l : List Bool) (n : Nat) : Prop :=
  ∃ l1 l2, l = l1 ++ List.replicate n true ++ l2

/-- Length of the run of true flags at the end of a boolean list; for a
flag list in ascending date order this is the number of consecutive
completed days counting back from the most recent day. -/
def trailingRun (l : List Bool) : Nat :=
  (l.reverse.takeWhile (fun b => b)).length

/-- Completion flags of one habit over the date-sorted records, the
sequence scanned by calculateStreaks. -/
def sortedCompletionFlags (records : List DayRecord) (hid : String) : List Bool :=
  (sortRecordsByDate records).map (fun r => habitCompletedIn r hid)

theorem leadTrue_replicate (n : Nat) : leadTrue (List.replicate n true) = n := by
  induction n with
  | zero => rfl
  | succ m ih => simp [List.replicate_succ, leadTrue, ih]

theorem runsMax_replicate (n : Nat) : runsMax (List.replicate n true) = n := by
  induction n with
  | zero => rfl
  | succ m ih =>
    simp [List.replicate_succ, runsMax, leadTrue_replicate, ih]

theorem leadTrue_replicate_false (n : Nat) (r : List Bool) :
    leadTrue (List.replicate n true ++ false :: r) = n := by
  induction n with
  | zero => simp [leadTrue]
  | succ m ih => simp [List.replicate_succ, leadTrue, ih]

theorem runsMax_replicate_false (n : Nat) (r : List Bool) :
    runsMax (List.replicate n true ++ false :: r) = max n (runsMax r) := by
  induction n with
  | zero => simp [runsMax]
  | succ m ih =>
    simp [List.replicate_succ, runsMax, leadTrue_replicate_false, ih]
    omega

theorem streakLoop_snd (ms : List Bool) : ∀ (first : Bool) (cur lng tmp : Nat),
    (streakLoop first cur lng tmp ms).2 = max lng (runsMax (List.replicate tmp true ++ ms)) := by
  induction ms with
  | nil =>
    intro first cur lng tmp
    simp [streakLoop, runsMax_replicate]
  | cons b rest ih =>
    intro first cur lng tmp
    cases b
    · simp only [streakLoop, Bool.false_eq_true, if_false]
      rw [ih, runsMax_replicate_false]
      simp only [List.replicate_zero, List.nil_append]
      omega
    · simp only [streakLoop, if_true]
      rw [ih]
      have he : List.replicate tmp true ++ true :: rest =
          List.replicate (tmp + 1) true ++ rest := by
        simp [List.replicate_succ', List.append_assoc]
      rw [he]

theorem streakLoop_fst_false (ms : List Bool) : ∀ cur lng tmp : Nat,
    (streakLoop false cur lng tmp ms).1 = cur := by
  induction ms with
  | nil => intro cur lng tmp; rfl
  | cons b rest ih =>
    intro cur lng tmp
    cases b <;> simp [streakLoop, ih]

theorem streakLoop_true_fst_cons (b : Bool) (rest : List Bool) (cur lng : Nat) :
    (streakLoop true cur lng 0 (b :: rest)).1 = if b then 1 else 0 := by
  cases b <;> simp [streakLoop, streakLoop_fst_false]

theorem hasTrueRun_zero (l : List Bool) : hasTrueRun l 0 :=
  ⟨[], l, by simp⟩

theorem replicate_head_iff_leadTrue (n : Nat) : ∀ l : List Bool,
    (∃ l2, l = List.replicate n true ++ l2) ↔ n ≤ leadTrue l := by
  induction n with
  | zero =>
    intro l
    simp
  | succ m ih =>
    intro l
    constructor
    · rintro ⟨l2, rfl⟩
      have hm := (ih (List.replicate m true ++ l2)).mp ⟨l2, rfl⟩
      simp [List.replicate_succ, leadTrue]
      omega
    · intro h
      cases l with
      | nil => simp [leadTrue] at h
      | cons b rest =>
        cases b
        · simp [leadTrue] at h
        · simp only [leadTrue, if_true] at h
          obtain ⟨l2, h2⟩ := (ih rest).mpr (by omega)
          exact ⟨l2, by simp [List.replicate_succ, h2]⟩

theorem hasTrueRun_cons (b : Bool) (l : List Bool) (n : Nat) :
    hasTrueRun (b :: l) n ↔
      (∃ l2, b :: l = List.replicate n true ++ l2) ∨ hasTrueRun l n := by
  constructor
  · rintro ⟨l1, l2, he⟩
    cases l1 with
    | nil => exact Or.inl ⟨l2, by simpa using he⟩
    | cons x l1' =>
      right
      simp only [List.cons_append, List.cons.injEq] at he
      exact ⟨l1', l2, he.2⟩
  · rintro (⟨l2, he⟩ | ⟨l1, l2, he⟩)
    · exact ⟨[], l2, by simpa using he⟩
    · exact ⟨b :: l1, l2, by simp [he]⟩

theorem hasTrueRun_le (l : List Bool) : ∀ n : Nat, hasTrueRun l n → n ≤ runsMax l := by
  induction l with
  | nil =>
    rintro n ⟨l1, l2, he⟩
    rw [eq_comm, List.append_eq_nil] at he
    rcases he with ⟨he1, he2⟩
    rw [List.append_eq_nil] at he1
    have : n = 0 := by
      have := he1.2
      rcases n with _ | m
      · rfl
      · simp [List.replicate_succ] at this
    omega
  | cons b rest ih =>
    intro n h
    rcases (hasTrueRun_cons b rest n).mp h with ⟨l2, he⟩ | hr
    · rcases n with _ | m
      · exact Nat.zero_le _
      · rw [List.replicate_succ, List.cons_append, List.cons.injEq] at he
        rcases he with ⟨hb, hrest⟩
        have hm : m ≤ leadTrue rest :=
          (replicate_head_iff_leadTrue m rest).mp ⟨l2, hrest⟩
        subst hb
        simp only [runsMax, if_true]
        omega
    · have := ih n hr
      cases b <;> simp only [runsMax, if_true, Bool.false_eq_true, if_false] <;> omega

theorem hasTrueRun_runsMax (l : List Bool) : hasTrueRun l (runsMax l) := by
  induction l with
  | nil => exact hasTrueRun_zero []
  | cons b rest ih =>
    cases b
    · simp only [runsMax, Bool.false_eq_true, if_false]
      exact (hasTrueRun_cons false rest _).mpr (Or.inr ih)
    · simp only [runsMax, if_true]
      by_cases hc : leadTrue rest + 1 ≤ runsMax rest
      · rw [Nat.max_eq_right hc]
        exact (hasTrueRun_cons true rest _).mpr (Or.inr ih)
      · rw [Nat.max_eq_left (by omega)]
        obtain ⟨l2, h2⟩ := (replicate_head_iff_leadTrue (leadTrue rest) rest).mpr le_rfl
        refine ⟨[], l2, ?_⟩
        rw [List.nil_append, List.replicate_succ, List.cons_append, ← h2]

theorem hasTrueRun_reverse_of (l : List Bool) (n : Nat) (h : hasTrueRun l n) :
    hasTrueRun l.reverse n := by
  obtain ⟨l1, l2, rfl⟩ := h
  refine ⟨l2.reverse, l1.reverse, ?_⟩
  simp [List.reverse_append, List.append_assoc]

theorem hasTrueRun_reverse (l : List Bool) (n : Nat) :
    hasTrueRun l.reverse n ↔ hasTrueRun l n := by
  constructor
  · intro h
    have := hasTrueRun_reverse_of l.reverse n h
    simpa using this
  · exact hasTrueRun_reverse_of l n

theorem habitStreaks_snd (sorted : List DayRecord) (hid : String) :
    (habitStreaks sorted hid).2 =
      runsMax ((sorted.map (fun r => habitCompletedIn r hid)).reverse) := by
  unfold habitStreaks
  rw [streakLoop_snd]
  simp only [List.replicate_zero, List.nil_append, Nat.zero_max]

theorem mem_calculateStreaks {records : List DayRecord} {sd : StreakData}
    (h : sd ∈ calculateStreaks records) :
    ∃ p ∈ habitUniverse records,
      sd = { habitId := p.1, habitName := p.2,
             currentStreak := (habitStreaks (sortRecordsByDate records) p.1).1,
             longestStreak := (habitStreaks (sortRecordsByDate records) p.1).2 } := by
  unfold calculateStreaks at h
  split at h
  · simp at h
  · obtain ⟨p, hp, he⟩ := List.mem_map.mp h
    exact ⟨p, hp, he.symm⟩

/-- Six days of the second test scenario of the spec: five consecutive
days with the habit completed followed by a most recent day with
nothing completed. -/
def claim7Records : List DayRecord :=
  [ { date := ⟨2024, 1, 1⟩, completionRate := 100, achievement := .gold,
      habits := [{ id := "h1", name := "Exercise", completed := true }], timestamp := none },
    { date := ⟨2024, 1, 2⟩, completionRate := 100, achievement := .gold,
      habits := [{ id := "h1", name := "Exercise", completed := true }], timestamp := none },
    { date := ⟨2024, 1, 3⟩, completionRate := 100, achievement := .gold,
      habits := [{ id := "h1", name := "Exercise", completed := true }], timestamp := none },
    { date := ⟨2024, 1, 4⟩, completionRate := 100, achievement := .gold,
      habits := [{ id := "h1", name := "Exercise", completed := true }], timestamp := none },
    { date := ⟨2024, 1, 5⟩, completionRate := 100, achievement := .gold,
      habits := [{ id := "h1", name := "Exercise", completed := true }], timestamp := none },
    { date := ⟨2024, 1, 6⟩, completionRate := 0, achievement := .failed,
      habits := [{ id := "h1", name := "Exercise", completed := false }], timestamp := none } ]

/-- C7: for every record list and every habit of the observed universe,
calculateStreaks reports a longestStreak that is the maximum length of
a contiguous run of completed flags in the date-sorted input, including
a run extending to the oldest day; and on five fully completed days
followed by a most recent empty day it reports currentStreak 0 and
longestStreak 5. -/
theorem claim7_longest_streak :
    (∀ (records : List DayRecord) (sd : StreakData), sd ∈ calculateStreaks records →
        hasTrueRun (sortedCompletionFlags records sd.habitId) sd.longestStreak ∧
        (∀ n : Nat, hasTrueRun (sortedCompletionFlags records sd.habitId) n →
          n ≤ sd.longestStreak)) ∧
    (calculateStreaks claim7Records).map
        (fun sd => (sd.habitId, sd.currentStreak, sd.longestStreak)) = [("h1", 0, 5)] := by
  constructor
  · intro records sd h
    obtain ⟨p, hp, rfl⟩ := mem_calculateStreaks h
    constructor
    · have h1 := hasTrueRun_runsMax
        ((sortRecordsByDate records).map (fun r => habitCompletedIn r p.1)).reverse
      rw [hasTrueRun_reverse] at h1
      simpa [sortedCompletionFlags, habitStreaks_snd] using h1
    · intro n hn
      have h2 : hasTrueRun
          ((sortRecordsByDate records).map (fun r => habitCompletedIn r p.1)).reverse n := by
        rw [hasTrueRun_reverse]
        simpa [sortedCompletionFlags] using hn
      have := hasTrueRun_le _ n h2
      simpa [habitStreaks_snd] using this
  · decide

/-- Closed witness for claim C7 at a concrete input. -/
theorem claim7_longest_streak_witness :
    ({ habitId := "h1", habitName := "Exercise", currentStreak := 0, longestStreak := 5 }
        : StreakData) ∈ calculateStreaks claim7Records ∧
    hasTrueRun (sortedCompletionFlags claim7Records "h1") 5 ∧
    (∀ n : Nat, hasTrueRun (sortedCompletionFlags claim7Records "h1") n → n ≤ 5) := by
  have hmem : ({ habitId := "h1", habitName := "Exercise", currentStreak := 0, longestStreak := 5 }
      : StreakData) ∈ calculateStreaks claim7Records := by decide
  have h := claim7_longest_streak.1 claim7Records _ hmem
  exact ⟨hmem, h.1, h.2⟩

/-- C10: every StreakData row of calculateStreaks satisfies
0 ≤ currentStreak and currentStreak ≤ longestStreak. -/
theorem claim10_streak_invariant : ∀ (records : List DayRecord) (sd : StreakData),
    sd ∈ calculateStreaks records →
    0 ≤ sd.currentStreak ∧ sd.currentStreak ≤ sd.longestStreak := by
  intro records sd h
  obtain ⟨p, hp, rfl⟩ := mem_calculateStreaks h
  refine ⟨Nat.zero_le _, ?_⟩
  show (habitStreaks (sortRecordsByDate records) p.1).1 ≤
    (habitStreaks (sortRecordsByDate records) p.1).2
  unfold habitStreaks
  cases hms : ((sortRecordsByDate records).map (fun r => habitCompletedIn r p.1)).reverse with
  | nil => simp [streakLoop]
  | cons b rest =>
    rw [streakLoop_true_fst_cons, streakLoop_snd]
    simp only [List.replicate_zero, List.nil_append]
    cases b
    · simp
    · simp only [if_true]
      have h1 : 1 ≤ runsMax (true :: rest) := by
        simp only [runsMax, if_true]
        omega
      omega

/-- Single-day input used by the witness of claim C10. -/
def claim10Records : List DayRecord :=
  [ { date := ⟨2024, 5, 1⟩, completionRate := 100, achievement := .gold,
      habits := [{ id := "h2", name := "Read", completed := true }], timestamp := none } ]

/-- Closed witness for claim C10 at a concrete input. -/
theorem claim10_streak_invariant_witness :
    ({ habitId := "h2", habitName := "Read", currentStreak := 1, longestStreak := 1 }
        : StreakData) ∈ calculateStreaks claim10Records ∧
    ((0 : Nat) ≤ 1 ∧ (1 : Nat) ≤ 1) := by
  have hmem : ({ habitId := "h2", habitName := "Read", currentStreak := 1, longestStreak := 1 }
      : StreakData) ∈ calculateStreaks claim10Records := by decide
  exact ⟨hmem, claim10_streak_invariant claim10Records _ hmem⟩

/-- Three consecutive days on which the habit is completed; the run
counting back from the most recent day has length 3. -/
def claim1Records : List DayRecord :=
  [ { date := ⟨2024, 1, 1⟩, completionRate := 100, achievement := .gold,
      habits := [{ id := "h1", name := "Exercise", completed := true }], timestamp := none },
    { date := ⟨2024, 1, 2⟩, completionRate := 100, achievement := .gold,
      habits := [{ id := "h1", name := "Exercise", completed := true }], timestamp := none },
    { date := ⟨2024, 1, 3⟩, completionRate := 100, achievement := .gold,
      habits := [{ id := "h1", name := "Exercise", completed := true }], timestamp := none } ]

/-- C1: evaluation exhibiting the divergence between the code and the
claim.  On three consecutive fully completed days the run of completed
days counting back from the most recent day has length 3, yet
calculateStreaks reports currentStreak 1: the source assigns
currentStreak only while visiting the most recent day, so the reported
current streak is 1 whenever the most recent day is completed,
regardless of how far the run extends. -/
theorem claim1_current_streak_eval :
    (calculateStreaks claim1Records).map (fun sd => sd.currentStreak) = [1] ∧
    trailingRun (sortedCompletionFlags claim1Records "h1") = 3 ∧ (1 : Nat) ≠ 3 := by
  exact ⟨by decide, by decide, by decide⟩

/-- Unsorted two-day input of the mutation evaluation of claim C2: the
later day comes first. -/
def claim2Records : List DayRecord :=
  [ { date := ⟨2024, 1, 2⟩, completionRate := 100, achievement := .gold,
      habits := [], timestamp := none },
    { date := ⟨2024, 1, 1⟩, completionRate := 0, achievement := .failed,
      habits := [], timestamp := none } ]

/-- C2: evaluation exhibiting the divergence between the code and the
claim.  The claim says no analytics operation mutates its input
sequence, but getCompletionTrends calls sort directly on its input
array (without the copy that calculateStreaks makes), so after the call
an unsorted input array holds its elements in ascending date order
rather than in the original order. -/
theorem claim2_trends_mutates_input :
    (getCompletionTrends claim2Records).2 ≠ claim2Records ∧
    (getCompletionTrends claim2Records).2 =
      [ { date := ⟨2024, 1, 1⟩, completionRate := 0, achievement := .failed,
          habits := [], timestamp := none },
        { date := ⟨2024, 1, 2⟩, completionRate := 100, achievement := .gold,
          habits := [], timestamp := none } ] := by
  exact ⟨by decide, by decide⟩

/-- Number of input days carrying a given achievement tier. -/
def countAch (records : List DayRecord) (a : Achievement) : Nat :=
  records.countP (fun r => decide (r.achievement = a))

theorem foldl_achStep (records : List DayRecord) : ∀ acc : Nat × Nat × Nat × Nat,
    records.foldl achStep acc =
      (acc.1 + countAch records .gold, acc.2.1 + countAch records .silver,
       acc.2.2.1 + countAch records .bronze, acc.2.2.2 + countAch records .failed) := by
  induction records with
  | nil => intro acc; simp [countAch]
  | cons r rest ih =>
    intro acc
    rw [List.foldl_cons, ih]
    cases hr : r.achievement <;>
      simp [achStep, hr, countAch, List.countP_cons] <;> omega

theorem countAch_partition (records : List DayRecord) :
    countAch records .gold + countAch records .silver + countAch records .bronze +
      countAch records .failed = records.length := by
  induction records with
  | nil => simp [countAch]
  | cons r rest ih =>
    cases hr : r.achievement <;>
      simp [countAch, List.countP_cons, hr] at ih ⊢ <;> omega

/-- C8: getOverallStats returns totalDays equal to the input length,
the four achievement tier counts sum to the input length, and on the
empty list every field is zero (no division is attempted). -/
theorem claim8_overall_stats : ∀ records : List DayRecord,
    (getOverallStats records).totalDays = records.length ∧
    (getOverallStats records).goldDays + (getOverallStats records).silverDays +
      (getOverallStats records).bronzeDays + (getOverallStats records).failedDays =
      records.length ∧
    getOverallStats [] =
      { totalDays := 0, averageCompletion := 0, goldDays := 0,
        silverDays := 0, bronzeDays := 0, failedDays := 0 } := by
  intro records
  refine ⟨?_, ?_, rfl⟩
  · cases records with
    | nil => rfl
    | cons r rest => rfl
  · cases records with
    | nil => rfl
    | cons r rest =>
      have hg : (getOverallStats (r :: rest)).goldDays =
          (countAchievements (r :: rest)).1 := rfl
      have hs : (getOverallStats (r :: rest)).silverDays =
          (countAchievements (r :: rest)).2.1 := rfl
      have hb : (getOverallStats (r :: rest)).bronzeDays =
          (countAchievements (r :: rest)).2.2.1 := rfl
      have hf : (getOverallStats (r :: rest)).failedDays =
          (countAchievements (r :: rest)).2.2.2 := rfl
      rw [hg, hs, hb, hf]
      unfold countAchievements
      rw [foldl_achStep]
      simpa using countAch_partition (r :: rest)

theorem dateLe_iff (a b : CalDate) : dateLe a b ↔ dateLt a b ∨ a = b := by
  obtain ⟨ya, ma, da⟩ := a
  obtain ⟨yb, mb, db⟩ := b
  simp only [dateLe, dateLt, CalDate.mk.injEq]
  omega

theorem isAfter_midnight_iff (d : CalDate) (i : Instant) :
    isAfter (midnightOf d) i ↔ dateLt i.day d := by
  unfold isAfter instantLt midnightOf
  constructor
  · rintro (h | ⟨he, hms⟩)
    · exact h
    · exact absurd hms (Nat.not_lt_zero _)
  · exact Or.inl

theorem daysInMonth_pos (y : Int) (m : Nat) (h1 : 1 ≤ m) (h2 : m ≤ 12) :
    0 < daysInMonth y m := by
  cases hl : isLeapYear y <;> interval_cases m <;> simp [daysInMonth, hl]

theorem subMonthsDate_valid (d : CalDate) (n : Nat) (hd : ValidDate d) :
    ValidDate (subMonthsDate d n) := by
  obtain ⟨h1, h2, h3, h4⟩ := hd
  have hyear : (subMonthsDate d n).year =
      (d.year * 12 + (d.month : Int) - 1 - (n : Int)).fdiv 12 := rfl
  have hmonth : (subMonthsDate d n).month =
      ((d.year * 12 + (d.month : Int) - 1 - (n : Int)).emod 12).toNat + 1 := rfl
  have hday : (subMonthsDate d n).day =
      min d.day (daysInMonth (subMonthsDate d n).year (subMonthsDate d n).month) := rfl
  have hm0 : 0 ≤ (d.year * 12 + (d.month : Int) - 1 - (n : Int)).emod 12 :=
    Int.emod_nonneg _ (by norm_num)
  have hm1 : (d.year * 12 + (d.month : Int) - 1 - (n : Int)).emod 12 < 12 :=
    Int.emod_lt_of_pos _ (by norm_num)
  have hdim : 0 < daysInMonth (subMonthsDate d n).year (subMonthsDate d n).month := by
    refine daysInMonth_pos _ _ ?_ ?_ <;> rw [hmonth] <;> omega
  refine ⟨?_, ?_, ?_, ?_⟩
  · rw [hmonth]; omega
  · rw [hmonth]; omega
  · rw [hday]; omega
  · rw [hday]; exact Nat.min_le_right _ _

theorem not_dateLe_prev (d : CalDate) (hv : ValidDate d) :
    ¬ dateLe d (prevCalendarDay d) := by
  obtain ⟨h1, h2, h3, h4⟩ := hv
  unfold prevCalendarDay
  split
  · simp only [dateLe]; omega
  · split
    · simp only [dateLe]; omega
    · simp only [dateLe]; omega

/-- C4: for every record list, window, and current instant (with a
valid current calendar day), getFilteredRecords keeps exactly those
records whose date is on or after the calendar day obtained by
subtracting the window's month count from now; a record dated on the
cutoff day itself is kept, a record dated the day before the cutoff is
dropped, and the output is a sublist of the input, preserving relative
order. -/
theorem claim4_filter_window :
    ∀ (records : List DayRecord) (period : Period) (now : Instant), ValidDate now.day →
    (getFilteredRecords records period now =
        records.filter (fun r =>
          decide (dateLe (subMonths now (monthsOfPeriod period)).day r.date))) ∧
    (getFilteredRecords records period now).Sublist records ∧
    (∀ r ∈ records, r.date = (subMonths now (monthsOfPeriod period)).day →
        r ∈ getFilteredRecords records period now) ∧
    (∀ r ∈ records,
        r.date = prevCalendarDay (subMonths now (monthsOfPeriod period)).day →
        r ∉ getFilteredRecords records period now) := by
  intro records period now hv
  have hvc : ValidDate (subMonths now (monthsOfPeriod period)).day :=
    subMonthsDate_valid now.day (monthsOfPeriod period) hv
  have hpred : ∀ r : DayRecord,
      (decide (isAfter (midnightOf r.date) (subMonths now (monthsOfPeriod period))) ||
        decide (r.date = (subMonths now (monthsOfPeriod period)).day)) =
      decide (dateLe (subMonths now (monthsOfPeriod period)).day r.date) := by
    intro r
    by_cases h : dateLe (subMonths now (monthsOfPeriod period)).day r.date
    · rcases (dateLe_iff _ _).mp h with hlt | heq
      · have ha : isAfter (midnightOf r.date) (subMonths now (monthsOfPeriod period)) :=
          (isAfter_midnight_iff _ _).mpr hlt
        simp [ha, h]
      · have hrefl : dateLe (subMonths now (monthsOfPeriod period)).day
            (subMonths now (monthsOfPeriod period)).day :=
          (dateLe_iff _ _).mpr (Or.inr rfl)
        simp [heq.symm, hrefl]
    · have ha : ¬ isAfter (midnightOf r.date) (subMonths now (monthsOfPeriod period)) := by
        rw [isAfter_midnight_iff]
        intro hlt
        exact h ((dateLe_iff _ _).mpr (Or.inl hlt))
      have he : r.date ≠ (subMonths now (monthsOfPeriod period)).day := by
        intro he
        exact h ((dateLe_iff _ _).mpr (Or.inr he.symm))
      simp [ha, he, h]
  have hmain : getFilteredRecords records period now =
      records.filter (fun r =>
        decide (dateLe (subMonths now (monthsOfPeriod period)).day r.date)) := by
    unfold getFilteredRecords
    exact List.filter_congr (fun r _ => hpred r)
  refine ⟨hmain, ?_, ?_, ?_⟩
  · rw [hmain]; exact List.filter_sublist _
  · intro r hr he
    rw [hmain, List.mem_filter]
    refine ⟨hr, decide_eq_true ?_⟩
    rw [he]
    exact (dateLe_iff _ _).mpr (Or.inr rfl)
  · intro r hr he hin
    rw [hmain, List.mem_filter] at hin
    have hle : dateLe (subMonths now (monthsOfPeriod period)).day r.date :=
      of_decide_eq_true hin.2
    rw [he] at hle
    exact not_dateLe_prev _ hvc hle

/-- Current instant of the witness of claim C4: noon of 2026-10-11, so
the one-month cutoff day is 2026-09-11. -/
def claim4Now : Instant := ⟨⟨2026, 10, 11⟩, 43200000⟩

/-- Record dated exactly on the one-month cutoff day of claim4Now. -/
def claim4OnCutoff : DayRecord :=
  { date := ⟨2026, 9, 11⟩, completionRate := 50, achievement := .silver,
    habits := [], timestamp := none }

/-- Record dated one calendar day before the one-month cutoff day. -/
def claim4BeforeCutoff : DayRecord :=
  { date := ⟨2026, 9, 10⟩, completionRate := 50, achievement := .silver,
    habits := [], timestamp := none }

/-- Input list of the witness of claim C4. -/
def claim4Records : List DayRecord :=
  [ claim4OnCutoff, claim4BeforeCutoff,
    { date := ⟨2026, 10, 1⟩, completionRate := 100, achievement := .gold,
      habits := [], timestamp := none } ]

/-- Closed witness for claim C4 at a concrete input: the boundary day
is kept and the day before it is dropped. -/
theorem claim4_filter_window_witness :
    ValidDate claim4Now.day ∧
    claim4OnCutoff ∈ getFilteredRecords claim4Records .oneMonth claim4Now ∧
    claim4BeforeCutoff ∉ getFilteredRecords claim4Records .oneMonth claim4Now := by
  have h := claim4_filter_window claim4Records .oneMonth claim4Now (by decide)
  refine ⟨by decide, ?_, ?_⟩
  · exact h.2.2.1 claim4OnCutoff (by decide) (by decide)
  · exact h.2.2.2 claim4BeforeCutoff (by decide) (by decide)

theorem buildDayHabits_ids (habits : List HabitInfo) (dm : List (String × RawRecord)) :
    (buildDayHabits habits dm).map (fun h => h.id) = habits.map (fun hb => hb.id) := by
  induction habits with
  | nil => rfl
  | cons hb t ih =>
    simp only [buildDayHabits, List.map_cons] at ih ⊢
    cases hl : dm.lookup hb.id <;> simp [hl, ih]

theorem buildDayHabits_names (habits : List HabitInfo) (dm : List (String × RawRecord)) :
    (buildDayHabits habits dm).map (fun h => h.name) = habits.map (fun hb => hb.name) := by
  induction habits with
  | nil => rfl
  | cons hb t ih =>
    simp only [buildDayHabits, List.map_cons] at ih ⊢
    cases hl : dm.lookup hb.id <;> simp [hl, ih]

theorem buildDayHabits_length (habits : List HabitInfo) (dm : List (String × RawRecord)) :
    (buildDayHabits habits dm).length = habits.length := by
  unfold buildDayHabits
  exact List.length_map _ _

theorem rawCompletionRate_spec (c t : Nat) :
    rawCompletionRate c t =
      (if t = 0 then (0 : ℚ)
       else ((round (fl64 (fl64 ((c : ℚ) / (t : ℚ)) * 100)) : ℤ) : ℚ)) := by
  unfold rawCompletionRate
  rcases Nat.eq_zero_or_pos t with h | h
  · simp [h]
  · rw [if_pos h, if_neg (by omega)]

/-- C5 (amended): the Day Aggregator emits one AnalyticsDay per raw date
entry; each day habit list follows the full current habit list entry for
entry (same ids and names in order), a habit with no raw entry for the
date is reported not completed, and the completion rate is Math.round of
the IEEE-754 double evaluation of (completedCount / totalHabits) * 100
(each operation rounding to binary64), or 0 when the habit list is
empty; this can differ by one from the exact round(100 x completedCount
/ totalHabits), as at 23 of 40. -/
theorem claim5_day_aggregator :
    ∀ (habits : List HabitInfo) (records : List (CalDate × List (String × RawRecord))),
    (convertToAnalyticsFormat habits records).length = records.length ∧
    ∀ day ∈ convertToAnalyticsFormat habits records,
      ∃ dm, (day.date, dm) ∈ records ∧
        day.habits.map (fun h => h.id) = habits.map (fun hb => hb.id) ∧
        day.habits.map (fun h => h.name) = habits.map (fun hb => hb.name) ∧
        (∀ hb ∈ habits, dm.lookup hb.id = none →
            ({ id := hb.id, name := hb.name, completed := false } : Habit) ∈ day.habits) ∧
        day.completionRate =
          (if habits.length = 0 then (0 : ℚ)
           else ((round (fl64 (fl64
              ((((day.habits.filter (fun h => h.completed)).length : ℚ)) /
                ((habits.length : ℚ))) * 100)) : ℤ) : ℚ)) := by
  intro habits records
  constructor
  · unfold convertToAnalyticsFormat
    exact List.length_map _ _
  · intro day hmem
    obtain ⟨e, he, rfl⟩ := List.mem_map.mp hmem
    dsimp only
    refine ⟨e.2, ?_, ?_, ?_, ?_, ?_⟩
    · simpa using he
    · exact buildDayHabits_ids habits e.2
    · exact buildDayHabits_names habits e.2
    · intro hb hhb hl
      exact List.mem_map.mpr ⟨hb, hhb, by simp [hl]⟩
    · rw [rawCompletionRate_spec]
      rw [buildDayHabits_length]

/-- Habit list of the witness of claim C5 (first test scenario of the
spec: habits A and B). -/
def claim5Habits : List HabitInfo := [{ id := "ha", name := "A" }, { id := "hb", name := "B" }]

/-- Raw records map of the witness of claim C5: one date on which A is
completed and B has no entry. -/
def claim5Raw : List (CalDate × List (String × RawRecord)) :=
  [(⟨2024, 3, 1⟩, [("ha", { completed := true, timestamp := "t1" })])]

/-- Day the aggregator produces for the claim C5 witness input. -/
def claim5Day : DayRecord :=
  { date := ⟨2024, 3, 1⟩, completionRate := 50, achievement := .silver,
    habits := [{ id := "ha", name := "A", completed := true },
               { id := "hb", name := "B", completed := false }],
    timestamp := none }

theorem round_eq_int (x : ℚ) (n : ℤ) (h1 : (n : ℚ) ≤ x + 1 / 2)
    (h2 : x + 1 / 2 < (n : ℚ) + 1) : round x = n := by
  rw [round_eq]
  rw [Int.floor_eq_iff]
  constructor
  · exact h1
  · exact_mod_cast h2

theorem rhe_eval (x : ℚ) (n : ℤ) (h1 : (n : ℚ) ≤ x + 1 / 2)
    (h2 : x + 1 / 2 < (n : ℚ) + 1) (hne : x ≠ (n : ℚ) - 1 / 2) : rhe x = n := by
  have hr : round x = n := round_eq_int x n h1 h2
  unfold rhe
  rw [if_neg]
  · exact hr
  · intro hf
    apply hne
    have hx : x = (⌊x⌋ : ℚ) + 1 / 2 := by
      have h := Int.floor_add_fract x
      rw [hf] at h
      linarith
    have hn : n = ⌊x⌋ + 1 := by
      rw [← hr, round_eq]
      nth_rewrite 1 [hx]
      rw [show ((⌊x⌋ : ℚ) + 1 / 2) + 1 / 2 = ((⌊x⌋ + 1 : ℤ) : ℚ) by push_cast; ring]
      rw [Int.floor_intCast]
    rw [hx, hn]
    push_cast
    ring

theorem int_log_two_eq (x : ℚ) (e : ℤ) (hlo : (2:ℚ) ^ e ≤ x)
    (hhi : x < (2:ℚ) ^ (e + 1)) : Int.log 2 x = e := by
  have hx : 0 < x := lt_of_lt_of_le (zpow_pos (by norm_num) e) hlo
  have ha : e ≤ Int.log 2 x := by
    rw [← Int.zpow_le_iff_le_log (by norm_num) hx]
    rw [show (((2:ℕ)):ℚ) = (2:ℚ) by norm_num]
    exact hlo
  have hb : Int.log 2 x < e + 1 := by
    rw [← Int.lt_zpow_iff_log_lt (by norm_num) hx]
    rw [show (((2:ℕ)):ℚ) = (2:ℚ) by norm_num]
    exact hhi
  omega

theorem fl64_eval (x : ℚ) (e m : ℤ) (hlo : (2:ℚ) ^ e ≤ x)
    (hhi : x < (2:ℚ) ^ (e + 1)) (hm : rhe (x * (2:ℚ) ^ ((52:ℤ) - e)) = m) :
    fl64 x = (m : ℚ) * (2:ℚ) ^ (e - (52:ℤ)) := by
  have hx : 0 < x := lt_of_lt_of_le (zpow_pos (by norm_num) e) hlo
  rw [fl64, if_neg (not_le.mpr hx), int_log_two_eq x e hlo hhi, hm]

theorem abs_rhe (x : ℚ) : |(rhe x : ℚ) - x| ≤ 1 / 2 := by
  unfold rhe
  split
  · next htie =>
    set m := ⌊x⌋ with hm
    have hx : x = (m : ℚ) + 1 / 2 := by
      have h := Int.floor_add_fract x
      rw [← hm] at h
      rw [htie] at h
      linarith
    split
    · rw [abs_le]
      constructor <;> linarith
    · rw [abs_le]
      push_cast
      constructor <;> linarith
  · rw [abs_sub_comm]
    exact abs_sub_round x

theorem fl64_err (x : ℚ) (hx : 0 < x) : |fl64 x - x| ≤ x / 2 ^ 53 := by
  rw [fl64, if_neg (not_le.mpr hx)]
  set L := Int.log 2 x with hL
  set z := x * (2:ℚ) ^ ((52:ℤ) - L) with hzdef
  have hz : x = z * (2:ℚ) ^ (L - (52:ℤ)) := by
    rw [hzdef, mul_assoc, ← zpow_add₀ (by norm_num : (2:ℚ) ≠ 0),
        show ((52:ℤ) - L) + (L - 52) = 0 by ring, zpow_zero, mul_one]
  have hpos : (0:ℚ) < (2:ℚ) ^ (L - (52:ℤ)) := zpow_pos (by norm_num) _
  have h1 : (rhe z : ℚ) * (2:ℚ) ^ (L - (52:ℤ)) - x =
      ((rhe z : ℚ) - z) * (2:ℚ) ^ (L - (52:ℤ)) := by
    conv_lhs => rw [hz]
    ring
  rw [h1, abs_mul, abs_of_pos hpos]
  have h2 : |(rhe z : ℚ) - z| ≤ 1 / 2 := abs_rhe z
  have hle : (2:ℚ) ^ L ≤ x := by
    have h := Int.zpow_log_le_self (b := 2) (R := ℚ) (by norm_num) hx
    rw [hL]
    simpa using h
  calc |(rhe z : ℚ) - z| * (2:ℚ) ^ (L - (52:ℤ))
      ≤ (1 / 2) * (2:ℚ) ^ (L - (52:ℤ)) :=
        mul_le_mul_of_nonneg_right h2 (le_of_lt hpos)
    _ = (2:ℚ) ^ L / 2 ^ 53 := by
        rw [zpow_sub₀ (by norm_num : (2:ℚ) ≠ 0)]
        rw [show ((2:ℚ) ^ (52:ℤ)) = 4503599627370496 by norm_num]
        rw [div_mul_div_comm, one_mul]
        norm_num
    _ ≤ x / 2 ^ 53 := (div_le_div_iff_of_pos_right (by norm_num)).mpr hle

theorem fl64_nonneg (x : ℚ) (hx : 0 ≤ x) : 0 ≤ fl64 x := by
  rcases eq_or_lt_of_le hx with h | h
  · rw [fl64, if_pos (le_of_eq h.symm)]
    exact hx
  · have herr := (abs_le.mp (fl64_err x h)).1
    have hd : x / 2 ^ 53 ≤ x := div_le_self (le_of_lt h) (by norm_num)
    linarith

theorem fl64_half : fl64 (((1:ℕ):ℚ) / ((2:ℕ):ℚ)) = 1 / 2 := by
  have h1 := fl64_eval (((1:ℕ):ℚ) / ((2:ℕ):ℚ)) (-1) 4503599627370496
    (by norm_num) (by norm_num) (by apply rhe_eval <;> norm_num)
  rw [h1]
  norm_num

theorem fl64_half_hundred : fl64 ((1 / 2 : ℚ) * 100) = 50 := by
  have h1 := fl64_eval ((1 / 2 : ℚ) * 100) 5 7036874417766400
    (by norm_num) (by norm_num) (by apply rhe_eval <;> norm_num)
  rw [h1]
  norm_num

theorem rawCompletionRate_one_of_two : rawCompletionRate 1 2 = 50 := by
  rw [rawCompletionRate_spec, if_neg (by norm_num), fl64_half, fl64_half_hundred]
  rw [round_eq_int (50:ℚ) 50 (by norm_num) (by norm_num)]
  norm_num

theorem achievementOf_fifty : achievementOf 50 = .silver := by
  unfold achievementOf
  rw [if_neg (by norm_num), if_pos (by norm_num)]

theorem claim5_conv_eval :
    convertToAnalyticsFormat claim5Habits claim5Raw = [claim5Day] := by
  show [({ date := ⟨2024, 3, 1⟩,
           completionRate := rawCompletionRate 1 2,
           achievement := achievementOf (rawCompletionRate 1 2),
           habits := [{ id := "ha", name := "A", completed := true },
                      { id := "hb", name := "B", completed := false }],
           timestamp := none } : DayRecord)] = [claim5Day]
  rw [rawCompletionRate_one_of_two, achievementOf_fifty]
  rfl

/-- Closed witness for claim C5 at a concrete input. -/
theorem claim5_day_aggregator_witness :
    claim5Day ∈ convertToAnalyticsFormat claim5Habits claim5Raw ∧
    (∃ dm, (claim5Day.date, dm) ∈ claim5Raw ∧
      claim5Day.habits.map (fun h => h.id) = claim5Habits.map (fun hb => hb.id) ∧
      claim5Day.habits.map (fun h => h.name) = claim5Habits.map (fun hb => hb.name) ∧
      (∀ hb ∈ claim5Habits, dm.lookup hb.id = none →
          ({ id := hb.id, name := hb.name, completed := false } : Habit) ∈ claim5Day.habits) ∧
      claim5Day.completionRate =
        (if claim5Habits.length = 0 then (0 : ℚ)
         else ((round (fl64 (fl64
            ((((claim5Day.habits.filter (fun h => h.completed)).length : ℚ)) /
              ((claim5Habits.length : ℚ))) * 100)) : ℤ) : ℚ))) := by
  have hmem : claim5Day ∈ convertToAnalyticsFormat claim5Habits claim5Raw := by
    rw [claim5_conv_eval]
    exact List.mem_singleton.mpr rfl
  exact ⟨hmem, (claim5_day_aggregator claim5Habits claim5Raw).2 claim5Day hmem⟩

theorem fl64_twentythree_fortieths :
    fl64 (((23:ℕ):ℚ) / ((40:ℕ):ℚ)) = 2589569785738035 / 4503599627370496 := by
  have h1 := fl64_eval (((23:ℕ):ℚ) / ((40:ℕ):ℚ)) (-1) 5179139571476070
    (by norm_num) (by norm_num) (by apply rhe_eval <;> norm_num)
  rw [h1]
  norm_num

theorem fl64_twentythree_fortieths_hundred :
    fl64 ((2589569785738035 / 4503599627370496 : ℚ) * 100) =
      8092405580431359 / 140737488355328 := by
  have h1 := fl64_eval ((2589569785738035 / 4503599627370496 : ℚ) * 100) 5 8092405580431359
    (by norm_num) (by norm_num) (by apply rhe_eval <;> norm_num)
  rw [h1]
  norm_num

theorem rawRate_23_40 : rawCompletionRate 23 40 = 57 := by
  rw [rawCompletionRate_spec, if_neg (by norm_num), fl64_twentythree_fortieths,
      fl64_twentythree_fortieths_hundred]
  rw [round_eq_int (8092405580431359 / 140737488355328 : ℚ) 57 (by norm_num) (by norm_num)]
  norm_num

/-- Habit list of the counterexample to the original claim C5: 40
habits. -/
def claim5CexHabits : List HabitInfo :=
  [{ id := "h1", name := "Habit 1" },
   { id := "h2", name := "Habit 2" },
   { id := "h3", name := "Habit 3" },
   { id := "h4", name := "Habit 4" },
   { id := "h5", name := "Habit 5" },
   { id := "h6", name := "Habit 6" },
   { id := "h7", name := "Habit 7" },
   { id := "h8", name := "Habit 8" },
   { id := "h9", name := "Habit 9" },
   { id := "h10", name := "Habit 10" },
   { id := "h11", name := "Habit 11" },
   { id := "h12", name := "Habit 12" },
   { id := "h13", name := "Habit 13" },
   { id := "h14", name := "Habit 14" },
   { id := "h15", name := "Habit 15" },
   { id := "h16", name := "Habit 16" },
   { id := "h17", name := "Habit 17" },
   { id := "h18", name := "Habit 18" },
   { id := "h19", name := "Habit 19" },
   { id := "h20", name := "Habit 20" },
   { id := "h21", name := "Habit 21" },
   { id := "h22", name := "Habit 22" },
   { id := "h23", name := "Habit 23" },
   { id := "h24", name := "Habit 24" },
   { id := "h25", name := "Habit 25" },
   { id := "h26", name := "Habit 26" },
   { id := "h27", name := "Habit 27" },
   { id := "h28", name := "Habit 28" },
   { id := "h29", name := "Habit 29" },
   { id := "h30", name := "Habit 30" },
   { id := "h31", name := "Habit 31" },
   { id := "h32", name := "Habit 32" },
   { id := "h33", name := "Habit 33" },
   { id := "h34", name := "Habit 34" },
   { id := "h35", name := "Habit 35" },
   { id := "h36", name := "Habit 36" },
   { id := "h37", name := "Habit 37" },
   { id := "h38", name := "Habit 38" },
   { id := "h39", name := "Habit 39" },
   { id := "h40", name := "Habit 40" }]

/-- Raw records map of the counterexample to the original claim C5: one
date with the first 23 of the 40 habits completed. -/
def claim5CexRaw : List (CalDate × List (String × RawRecord)) :=
  [(⟨2024, 3, 2⟩,
    [("h1", { completed := true, timestamp := "t" }),
     ("h2", { completed := true, timestamp := "t" }),
     ("h3", { completed := true, timestamp := "t" }),
     ("h4", { completed := true, timestamp := "t" }),
     ("h5", { completed := true, timestamp := "t" }),
     ("h6", { completed := true, timestamp := "t" }),
     ("h7", { completed := true, timestamp := "t" }),
     ("h8", { completed := true, timestamp := "t" }),
     ("h9", { completed := true, timestamp := "t" }),
     ("h10", { completed := true, timestamp := "t" }),
     ("h11", { completed := true, timestamp := "t" }),
     ("h12", { completed := true, timestamp := "t" }),
     ("h13", { completed := true, timestamp := "t" }),
     ("h14", { completed := true, timestamp := "t" }),
     ("h15", { completed := true, timestamp := "t" }),
     ("h16", { completed := true, timestamp := "t" }),
     ("h17", { completed := true, timestamp := "t" }),
     ("h18", { completed := true, timestamp := "t" }),
     ("h19", { completed := true, timestamp := "t" }),
     ("h20", { completed := true, timestamp := "t" }),
     ("h21", { completed := true, timestamp := "t" }),
     ("h22", { completed := true, timestamp := "t" }),
     ("h23", { completed := true, timestamp := "t" })])]

/-- Counterexample to the original claim C5: on a day with 23 of 40
habits completed the aggregator reports completion rate 57, because the
IEEE-754 double value of (23/40)*100 lies just below 57.5, while the
exact-rational reading round(100 x 23 / 40) = round(57.5) = 58 rounds
half up. -/
theorem claim5_cex :
    (convertToAnalyticsFormat claim5CexHabits claim5CexRaw).map
        (fun day => ((day.habits.filter (fun h => h.completed)).length,
                     day.habits.length, day.completionRate))
      = [(23, 40, (57 : ℚ))] ∧
    ((round ((100 * ((23:ℕ) : ℚ)) / ((40:ℕ) : ℚ)) : ℤ) : ℚ) = 58 ∧
    (57 : ℚ) ≠ 58 := by
  refine ⟨?_, ?_, by norm_num⟩
  · show [((23 : ℕ), (40 : ℕ), rawCompletionRate 23 40)] = [(23, 40, (57 : ℚ))]
    rw [rawRate_23_40]
  · rw [show (100 * ((23:ℕ) : ℚ)) / ((40:ℕ) : ℚ) = 115 / 2 by norm_num]
    rw [round_eq_int (115 / 2 : ℚ) 58 (by norm_num) (by norm_num)]
    norm_num

theorem rawCompletionRate_nonneg (c t : Nat) : 0 ≤ rawCompletionRate c t := by
  unfold rawCompletionRate
  split
  · have hq : (0:ℚ) ≤ fl64 ((c : ℚ) / (t : ℚ)) := fl64_nonneg _ (by positivity)
    have hy : (0:ℚ) ≤ fl64 (fl64 ((c : ℚ) / (t : ℚ)) * 100) :=
      fl64_nonneg _ (mul_nonneg hq (by norm_num))
    rw [round_eq]
    have h0 := Int.floor_nonneg.mpr (by linarith :
      (0:ℚ) ≤ fl64 (fl64 ((c : ℚ) / (t : ℚ)) * 100) + 1 / 2)
    exact_mod_cast h0
  · norm_num

theorem rawCompletionRate_le_100 (c t : Nat) (h : c ≤ t) :
    rawCompletionRate c t ≤ 100 := by
  unfold rawCompletionRate
  split
  · next ht =>
    have htq : (0:ℚ) < (t : ℚ) := by exact_mod_cast ht
    have hx0 : (0:ℚ) ≤ (c : ℚ) / (t : ℚ) := by positivity
    have hx1 : (c : ℚ) / (t : ℚ) ≤ 1 := by
      rw [div_le_one htq]
      exact_mod_cast h
    have hq1 : fl64 ((c : ℚ) / (t : ℚ)) ≤ 1 + 1 / 2 ^ 53 := by
      rcases eq_or_lt_of_le hx0 with h0 | h0
      · rw [fl64, if_pos (le_of_eq h0.symm), ← h0]
        norm_num
      · have h2 := (abs_le.mp (fl64_err _ h0)).2
        have h3 : (c : ℚ) / (t : ℚ) / 2 ^ 53 ≤ 1 / 2 ^ 53 :=
          (div_le_div_iff_of_pos_right (by norm_num)).mpr hx1
        linarith
    have hq0 : (0:ℚ) ≤ fl64 ((c : ℚ) / (t : ℚ)) := fl64_nonneg _ hx0
    have hy1 : fl64 ((c : ℚ) / (t : ℚ)) * 100 ≤ 100 + 100 / 2 ^ 53 := by linarith
    have hy0 : (0:ℚ) ≤ fl64 ((c : ℚ) / (t : ℚ)) * 100 := mul_nonneg hq0 (by norm_num)
    have hz1 : fl64 (fl64 ((c : ℚ) / (t : ℚ)) * 100) ≤
        100 + 100 / 2 ^ 53 + (100 + 100 / 2 ^ 53) / 2 ^ 53 := by
      rcases eq_or_lt_of_le hy0 with h0 | h0
      · rw [fl64, if_pos (le_of_eq h0.symm), ← h0]
        norm_num
      · have h2 := (abs_le.mp (fl64_err _ h0)).2
        have h3 : fl64 ((c : ℚ) / (t : ℚ)) * 100 / 2 ^ 53 ≤
            (100 + 100 / 2 ^ 53) / 2 ^ 53 :=
          (div_le_div_iff_of_pos_right (by norm_num)).mpr hy1
        linarith
    have hlt : fl64 (fl64 ((c : ℚ) / (t : ℚ)) * 100) + 1 / 2 < 101 := by
      have hc : (100:ℚ) + 100 / 2 ^ 53 + (100 + 100 / 2 ^ 53) / 2 ^ 53 + 1 / 2 < 101 := by
        norm_num
      linarith
    rw [round_eq]
    have hfl : (⌊fl64 (fl64 ((c : ℚ) / (t : ℚ)) * 100) + 1 / 2⌋ : ℤ) < 101 := by
      rw [Int.floor_lt]
      exact_mod_cast hlt
    have h100 : (⌊fl64 (fl64 ((c : ℚ) / (t : ℚ)) * 100) + 1 / 2⌋ : ℤ) ≤ 100 := by omega
    exact_mod_cast h100
  · norm_num

theorem achievementOf_iff (r : ℚ) (h0 : 0 ≤ r) (h100 : r ≤ 100) :
    (achievementOf r = .gold ↔ r = 100) ∧
    (achievementOf r = .silver ↔ 50 ≤ r ∧ r < 100) ∧
    (achievementOf r = .bronze ↔ 0 < r ∧ r < 50) ∧
    (achievementOf r = .failed ↔ r = 0) := by
  unfold achievementOf
  split_ifs with hg hs hb
  · refine ⟨⟨fun _ => hg, fun _ => rfl⟩, ?_, ?_, ?_⟩
    · exact ⟨fun hh => absurd hh (by decide),
        fun hh => absurd hh.2 (by rw [hg]; norm_num)⟩
    · exact ⟨fun hh => absurd hh (by decide),
        fun hh => absurd hh.2 (by rw [hg]; norm_num)⟩
    · exact ⟨fun hh => absurd hh (by decide),
        fun hh => absurd hg (by rw [hh]; norm_num)⟩
  · have hlt : r < 100 := lt_of_le_of_ne h100 hg
    refine ⟨?_, ⟨fun _ => ⟨hs, hlt⟩, fun _ => rfl⟩, ?_, ?_⟩
    · exact ⟨fun hh => absurd hh (by decide), fun hh => absurd hh hg⟩
    · exact ⟨fun hh => absurd hh (by decide), fun hh => absurd hh.2 (not_lt.mpr hs)⟩
    · exact ⟨fun hh => absurd hh (by decide),
        fun hh => by rw [hh] at hs; norm_num at hs⟩
  · have hlt50 : r < 50 := not_le.mp hs
    refine ⟨?_, ?_, ⟨fun _ => ⟨hb, hlt50⟩, fun _ => rfl⟩, ?_⟩
    · exact ⟨fun hh => absurd hh (by decide), fun hh => absurd hh hg⟩
    · exact ⟨fun hh => absurd hh (by decide), fun hh => absurd hh.1 hs⟩
    · exact ⟨fun hh => absurd hh (by decide),
        fun hh => by rw [hh] at hb; norm_num at hb⟩
  · have hr0 : r = 0 := le_antisymm (not_lt.mp hb) h0
    refine ⟨?_, ?_, ?_, ⟨fun _ => hr0, fun _ => rfl⟩⟩
    · exact ⟨fun hh => absurd hh (by decide),
        fun hh => by rw [hh] at hr0; norm_num at hr0⟩
    · exact ⟨fun hh => absurd hh (by decide),
        fun hh => by rw [hr0] at hh; norm_num at hh⟩
    · exact ⟨fun hh => absurd hh (by decide),
        fun hh => by rw [hr0] at hh; norm_num at hh⟩

/-- C6: every day the Day Aggregator produces is tiered by variant A:
gold exactly at completion rate 100, silver exactly on [50, 100),
bronze exactly on (0, 50), failed exactly at 0; and an empty habit list
always yields the failed tier. -/
theorem claim6_achievement_tiers :
    ∀ (habits : List HabitInfo) (records : List (CalDate × List (String × RawRecord)))
      (day : DayRecord), day ∈ convertToAnalyticsFormat habits records →
    ((day.achievement = .gold ↔ day.completionRate = 100) ∧
     (day.achievement = .silver ↔ 50 ≤ day.completionRate ∧ day.completionRate < 100) ∧
     (day.achievement = .bronze ↔ 0 < day.completionRate ∧ day.completionRate < 50) ∧
     (day.achievement = .failed ↔ day.completionRate = 0)) ∧
    (habits = [] → day.achievement = .failed) := by
  intro habits records day hmem
  obtain ⟨e, he, rfl⟩ := List.mem_map.mp hmem
  dsimp only
  have hc : (List.filter (fun h => h.completed) (buildDayHabits habits e.2)).length ≤
      (buildDayHabits habits e.2).length := List.length_filter_le _ _
  have h0 := rawCompletionRate_nonneg
    (List.filter (fun h => h.completed) (buildDayHabits habits e.2)).length
    (buildDayHabits habits e.2).length
  have h100 := rawCompletionRate_le_100
    (List.filter (fun h => h.completed) (buildDayHabits habits e.2)).length
    (buildDayHabits habits e.2).length hc
  refine ⟨achievementOf_iff _ h0 h100, ?_⟩
  intro hnil
  subst hnil
  norm_num [buildDayHabits, rawCompletionRate, achievementOf]

/-- Habit list of the witness of claim C6. -/
def claim6Habits : List HabitInfo :=
  [{ id := "x1", name := "Run" }, { id := "x2", name := "Read" }, { id := "x3", name := "Code" }]

/-- Raw records map of the witness of claim C6: one of the three habits
completed on one date. -/
def claim6Raw : List (CalDate × List (String × RawRecord)) :=
  [(⟨2024, 4, 2⟩, [("x1", { completed := true, timestamp := "t" })])]

/-- Day the aggregator produces for the claim C6 witness input: rate 33
percent, tier bronze. -/
def claim6Day : DayRecord :=
  { date := ⟨2024, 4, 2⟩, completionRate := 33, achievement := .bronze,
    habits := [{ id := "x1", name := "Run", completed := true },
               { id := "x2", name := "Read", completed := false },
               { id := "x3", name := "Code", completed := false }],
    timestamp := none }

theorem fl64_third : fl64 (((1:ℕ):ℚ) / ((3:ℕ):ℚ)) = 6004799503160661 / 18014398509481984 := by
  have h1 := fl64_eval (((1:ℕ):ℚ) / ((3:ℕ):ℚ)) (-2) 6004799503160661
    (by norm_num) (by norm_num) (by apply rhe_eval <;> norm_num)
  rw [h1]
  norm_num

theorem fl64_third_hundred :
    fl64 ((6004799503160661 / 18014398509481984 : ℚ) * 100) =
      2345624805922133 / 70368744177664 := by
  have h1 := fl64_eval ((6004799503160661 / 18014398509481984 : ℚ) * 100) 5 4691249611844266
    (by norm_num) (by norm_num) (by apply rhe_eval <;> norm_num)
  rw [h1]
  norm_num

theorem rawCompletionRate_one_of_three : rawCompletionRate 1 3 = 33 := by
  rw [rawCompletionRate_spec, if_neg (by norm_num), fl64_third, fl64_third_hundred]
  rw [round_eq_int (2345624805922133 / 70368744177664 : ℚ) 33 (by norm_num) (by norm_num)]
  norm_num

theorem achievementOf_thirtythree : achievementOf 33 = .bronze := by
  unfold achievementOf
  rw [if_neg (by norm_num), if_neg (by norm_num), if_pos (by norm_num)]

theorem claim6_conv_eval :
    convertToAnalyticsFormat claim6Habits claim6Raw = [claim6Day] := by
  show [({ date := ⟨2024, 4, 2⟩,
           completionRate := rawCompletionRate 1 3,
           achievement := achievementOf (rawCompletionRate 1 3),
           habits := [{ id := "x1", name := "Run", completed := true },
                      { id := "x2", name := "Read", completed := false },
                      { id := "x3", name := "Code", completed := false }],
           timestamp := none } : DayRecord)] = [claim6Day]
  rw [rawCompletionRate_one_of_three, achievementOf_thirtythree]
  rfl

/-- Closed witness for claim C6 at a concrete input. -/
theorem claim6_achievement_tiers_witness :
    claim6Day ∈ convertToAnalyticsFormat claim6Habits claim6Raw ∧
    (((claim6Day.achievement = .gold ↔ claim6Day.completionRate = 100) ∧
      (claim6Day.achievement = .silver ↔
        50 ≤ claim6Day.completionRate ∧ claim6Day.completionRate < 100) ∧
      (claim6Day.achievement = .bronze ↔
        0 < claim6Day.completionRate ∧ claim6Day.completionRate < 50) ∧
      (claim6Day.achievement = .failed ↔ claim6Day.completionRate = 0)) ∧
     (claim6Habits = [] → claim6Day.achievement = .failed)) := by
  have hmem : claim6Day ∈ convertToAnalyticsFormat claim6Habits claim6Raw := by
    rw [claim6_conv_eval]
    exact List.mem_singleton.mpr rfl
  exact ⟨hmem, claim6_achievement_tiers claim6Habits claim6Raw claim6Day hmem⟩

instance : IsTotal DayRecord recordLe := ⟨by
  intro a b
  unfold recordLe dateLe
  omega⟩

instance : IsTrans DayRecord recordLe := ⟨by
  intro a b c hab hbc
  unfold recordLe dateLe at *
  omega⟩

theorem sortRecordsByDate_perm (l : List DayRecord) : (sortRecordsByDate l).Perm l :=
  List.perm_insertionSort recordLe l

theorem sortRecordsByDate_sorted (l : List DayRecord) :
    List.Sorted recordLe (sortRecordsByDate l) :=
  List.sorted_insertionSort recordLe l

theorem pairwise_and_of {α : Type} {R S : α → α → Prop} :
    ∀ {l : List α}, l.Pairwise R → l.Pairwise S →
      l.Pairwise (fun a b => R a b ∧ S a b) := by
  intro l h1 h2
  induction l with
  | nil => exact List.Pairwise.nil
  | cons a t ih =>
    rcases List.pairwise_cons.mp h1 with ⟨h1a, h1t⟩
    rcases List.pairwise_cons.mp h2 with ⟨h2a, h2t⟩
    exact List.pairwise_cons.mpr ⟨fun b hb => ⟨h1a b hb, h2a b hb⟩, ih h1t h2t⟩

theorem dateLt_of_dateLe_ne (a b : CalDate) (h : dateLe a b) (hne : a ≠ b) :
    dateLt a b := by
  obtain ⟨ya, ma, da⟩ := a
  obtain ⟨yb, mb, db⟩ := b
  simp only [dateLe, dateLt, ne_eq, CalDate.mk.injEq] at *
  omega

theorem pairwise_strict_of_sorted (l : List DayRecord)
    (hs : List.Sorted recordLe l) (hd : (l.map (fun r => r.date)).Nodup) :
    l.Pairwise (fun a b => dateLt a.date b.date) := by
  have hne : l.Pairwise (fun a b => a.date ≠ b.date) := by
    rw [List.Nodup, List.pairwise_map] at hd
    exact hd
  exact (pairwise_and_of hs hne).imp
    (fun hab => dateLt_of_dateLe_ne _ _ hab.1 hab.2)

theorem sortRecordsByDate_eq_of_perm (l l' : List DayRecord) (hperm : l.Perm l')
    (hd : (l.map (fun r => r.date)).Nodup) :
    sortRecordsByDate l = sortRecordsByDate l' := by
  have hp : (sortRecordsByDate l).Perm (sortRecordsByDate l') :=
    (sortRecordsByDate_perm l).trans (hperm.trans (sortRecordsByDate_perm l').symm)
  have hd1 : ((sortRecordsByDate l).map (fun r => r.date)).Nodup :=
    (((sortRecordsByDate_perm l).map (fun r => r.date)).nodup_iff).mpr hd
  have hd' : (l'.map (fun r => r.date)).Nodup :=
    ((hperm.map (fun r => r.date)).nodup_iff).mp hd
  have hd2 : ((sortRecordsByDate l').map (fun r => r.date)).Nodup :=
    (((sortRecordsByDate_perm l').map (fun r => r.date)).nodup_iff).mpr hd'
  have hps1 := pairwise_strict_of_sorted _ (sortRecordsByDate_sorted l) hd1
  have hps2 := pairwise_strict_of_sorted _ (sortRecordsByDate_sorted l') hd2
  haveI : IsAntisymm DayRecord (fun a b => dateLt a.date b.date) := ⟨by
    intro a b h1 h2
    exfalso
    unfold dateLt at h1 h2
    omega⟩
  exact List.eq_of_perm_of_sorted hp hps1 hps2

/-- Keys of an association list. -/
def keysOf (m : List (String × String)) : List String := m.map (fun p => p.1)

theorem mapSet_keys (m : List (String × String)) (k v : String) :
    keysOf (mapSet m k v) =
      if k ∈ keysOf m then keysOf m else keysOf m ++ [k] := by
  induction m with
  | nil => simp [mapSet, keysOf]
  | cons p rest ih =>
    obtain ⟨k', v'⟩ := p
    by_cases hk : k' = k
    · subst hk
      simp [mapSet, keysOf]
    · simp only [mapSet, if_neg hk, keysOf, List.map_cons] at ih ⊢
      rw [ih]
      by_cases hm : k ∈ List.map (fun p => p.1) rest
      · rw [if_pos hm, if_pos (by simp [hm])]
      · rw [if_neg hm, if_neg (by simp [hm, Ne.symm hk])]
        simp

theorem mem_keys_mapSet (m : List (String × String)) (k v a : String) :
    a ∈ keysOf (mapSet m k v) ↔ a ∈ keysOf m ∨ a = k := by
  rw [mapSet_keys]
  split
  · next hin =>
    constructor
    · exact Or.inl
    · rintro (h | rfl)
      · exact h
      · exact hin
  · simp

theorem mapSet_keys_nodup (m : List (String × String)) (k v : String)
    (h : (keysOf m).Nodup) : (keysOf (mapSet m k v)).Nodup := by
  rw [mapSet_keys]
  split
  · exact h
  · next hout =>
    rw [List.nodup_append]
    exact ⟨h, List.nodup_singleton k, by simpa [List.disjoint_singleton] using hout⟩

theorem mapSet_values (m : List (String × String)) (k v : String)
    (f : String → String) (hm : ∀ p ∈ m, p.2 = f p.1) (hv : v = f k) :
    ∀ p ∈ mapSet m k v, p.2 = f p.1 := by
  induction m with
  | nil =>
    intro p hp
    simp only [mapSet, List.mem_singleton] at hp
    subst hp
    exact hv
  | cons q rest ih =>
    obtain ⟨k', v'⟩ := q
    intro p hp
    by_cases hk : k' = k
    · subst hk
      simp only [mapSet, if_pos rfl] at hp
      cases hp with
      | head => exact hv
      | tail _ hmem => exact hm _ (List.mem_cons_of_mem _ hmem)
    · simp only [mapSet, if_neg hk] at hp
      cases hp with
      | head => exact hm (k', v') (List.mem_cons_self _ _)
      | tail _ hmem => exact ih (fun q hq => hm q (List.mem_cons_of_mem _ hq)) _ hmem

/-- Statement that some record of the list carries a habit entry with
the given id. -/
def idObserved (records : List DayRecord) (k : String) : Prop :=
  ∃ r ∈ records, ∃ h ∈ r.habits, h.id = k

theorem foldl_mapSet_keys_mem (hs : List Habit) : ∀ (m : List (String × String)) (a : String),
    a ∈ keysOf (hs.foldl (fun m' h => mapSet m' h.id h.name) m) ↔
      a ∈ keysOf m ∨ ∃ h ∈ hs, h.id = a := by
  induction hs with
  | nil => simp
  | cons h t ih =>
    intro m a
    rw [List.foldl_cons, ih, mem_keys_mapSet]
    constructor
    · rintro ((hm | rfl) | ⟨h', hh', rfl⟩)
      · exact Or.inl hm
      · exact Or.inr ⟨h, List.mem_cons_self _ _, rfl⟩
      · exact Or.inr ⟨h', List.mem_cons_of_mem _ hh', rfl⟩
    · rintro (hm | ⟨h', hh', rfl⟩)
      · exact Or.inl (Or.inl hm)
      · rcases List.mem_cons.mp hh' with rfl | hh''
        · exact Or.inl (Or.inr rfl)
        · exact Or.inr ⟨h', hh'', rfl⟩

theorem foldl_mapSet_nodup (hs : List Habit) : ∀ m : List (String × String),
    (keysOf m).Nodup →
    (keysOf (hs.foldl (fun m' h => mapSet m' h.id h.name) m)).Nodup := by
  induction hs with
  | nil => intro m hm; exact hm
  | cons h t ih =>
    intro m hm
    rw [List.foldl_cons]
    exact ih _ (mapSet_keys_nodup _ _ _ hm)

theorem foldl_mapSet_values (hs : List Habit) (f : String → String)
    (hhs : ∀ h ∈ hs, h.name = f h.id) : ∀ m : List (String × String),
    (∀ p ∈ m, p.2 = f p.1) →
    ∀ p ∈ hs.foldl (fun m' h => mapSet m' h.id h.name) m, p.2 = f p.1 := by
  induction hs with
  | nil => intro m hm; exact hm
  | cons h t ih =>
    intro m hm
    rw [List.foldl_cons]
    exact ih (fun h' hh' => hhs h' (List.mem_cons_of_mem _ hh'))
      _ (mapSet_values m h.id h.name f hm (hhs h (List.mem_cons_self _ _)))

theorem habitUniverse_keys_mem_aux (records : List DayRecord) :
    ∀ (m : List (String × String)) (a : String),
    a ∈ keysOf (records.foldl
        (fun m r => r.habits.foldl (fun m' h => mapSet m' h.id h.name) m) m) ↔
      a ∈ keysOf m ∨ idObserved records a := by
  induction records with
  | nil => simp [idObserved]
  | cons r rest ih =>
    intro m a
    rw [List.foldl_cons, ih, foldl_mapSet_keys_mem]
    unfold idObserved
    constructor
    · rintro ((hm | ⟨h, hh, rfl⟩) | ⟨r', hr', h', hh', rfl⟩)
      · exact Or.inl hm
      · exact Or.inr ⟨r, List.mem_cons_self _ _, h, hh, rfl⟩
      · exact Or.inr ⟨r', List.mem_cons_of_mem _ hr', h', hh', rfl⟩
    · rintro (hm | ⟨r', hr', h', hh', rfl⟩)
      · exact Or.inl (Or.inl hm)
      · rcases List.mem_cons.mp hr' with rfl | hr''
        · exact Or.inl (Or.inr ⟨h', hh', rfl⟩)
        · exact Or.inr ⟨r', hr'', h', hh', rfl⟩

theorem habitUniverse_keys_mem (records : List DayRecord) (a : String) :
    a ∈ keysOf (habitUniverse records) ↔ idObserved records a := by
  unfold habitUniverse
  rw [habitUniverse_keys_mem_aux]
  simp [keysOf]

theorem habitUniverse_nodup_aux (records : List DayRecord) :
    ∀ m : List (String × String), (keysOf m).Nodup →
    (keysOf (records.foldl
        (fun m r => r.habits.foldl (fun m' h => mapSet m' h.id h.name) m) m)).Nodup := by
  induction records with
  | nil => intro m hm; exact hm
  | cons r rest ih =>
    intro m hm
    rw [List.foldl_cons]
    exact ih _ (foldl_mapSet_nodup _ _ hm)

theorem habitUniverse_keys_nodup (records : List DayRecord) :
    (keysOf (habitUniverse records)).Nodup := by
  unfold habitUniverse
  exact habitUniverse_nodup_aux records [] (by simp [keysOf])

theorem habitUniverse_values_aux (f : String → String) :
    ∀ records : List DayRecord,
    (∀ r ∈ records, ∀ h ∈ r.habits, h.name = f h.id) →
    ∀ m : List (String × String), (∀ p ∈ m, p.2 = f p.1) →
    ∀ p ∈ records.foldl
        (fun m r => r.habits.foldl (fun m' h => mapSet m' h.id h.name) m) m,
      p.2 = f p.1 := by
  intro records
  induction records with
  | nil => intro _ m hm; exact hm
  | cons r rest ih =>
    intro hn m hm
    rw [List.foldl_cons]
    exact ih (fun r' hr' => hn r' (List.mem_cons_of_mem _ hr'))
      _ (foldl_mapSet_values r.habits f (hn r (List.mem_cons_self _ _)) m hm)

theorem habitUniverse_values (records : List DayRecord) (f : String → String)
    (hn : ∀ r ∈ records, ∀ h ∈ r.habits, h.name = f h.id) :
    ∀ p ∈ habitUniverse records, p.2 = f p.1 := by
  unfold habitUniverse
  exact habitUniverse_values_aux f records hn [] (by simp)

theorem habitUniverse_mem_iff (records : List DayRecord) (f : String → String)
    (hn : ∀ r ∈ records, ∀ h ∈ r.habits, h.name = f h.id) (p : String × String) :
    p ∈ habitUniverse records ↔ idObserved records p.1 ∧ p.2 = f p.1 := by
  constructor
  · intro hp
    refine ⟨?_, habitUniverse_values records f hn p hp⟩
    rw [← habitUniverse_keys_mem]
    exact List.mem_map.mpr ⟨p, hp, rfl⟩
  · rintro ⟨hobs, hval⟩
    have hk : p.1 ∈ keysOf (habitUniverse records) :=
      (habitUniverse_keys_mem records p.1).mpr hobs
    obtain ⟨q, hq, hq1⟩ := List.mem_map.mp hk
    have hq2 : q.2 = f q.1 := habitUniverse_values records f hn q hq
    have hqp : q = p := by
      obtain ⟨p1, p2⟩ := p
      obtain ⟨q1, q2⟩ := q
      simp only at hq1 hval hq2
      subst hq1
      simp only [Prod.mk.injEq, true_and]
      rw [hq2, hval]
    rw [← hqp]
    exact hq

theorem habitUniverse_pairs_nodup (records : List DayRecord) :
    (habitUniverse records).Nodup := by
  have h := habitUniverse_keys_nodup records
  unfold keysOf at h
  exact List.Nodup.of_map _ h

theorem habitUniverse_perm (l l' : List DayRecord) (f : String → String)
    (hperm : l.Perm l')
    (hn : ∀ r ∈ l, ∀ h ∈ r.habits, h.name = f h.id) :
    (habitUniverse l).Perm (habitUniverse l') := by
  have hn' : ∀ r ∈ l', ∀ h ∈ r.habits, h.name = f h.id :=
    fun r hr => hn r (hperm.mem_iff.mpr hr)
  refine (List.perm_ext_iff_of_nodup (habitUniverse_pairs_nodup l)
    (habitUniverse_pairs_nodup l')).mpr ?_
  intro p
  rw [habitUniverse_mem_iff l f hn p, habitUniverse_mem_iff l' f hn' p]
  unfold idObserved
  constructor
  · rintro ⟨⟨r, hr, h, hh, hid⟩, hv⟩
    exact ⟨⟨r, hperm.mem_iff.mp hr, h, hh, hid⟩, hv⟩
  · rintro ⟨⟨r, hr, h, hh, hid⟩, hv⟩
    exact ⟨⟨r, hperm.mem_iff.mpr hr, h, hh, hid⟩, hv⟩

/-- C3 (amended): for record lists with pairwise-distinct dates and a
single name per habit id, calculateStreaks applied to a permutation of
the list yields a permutation of the original output: the same
StreakData rows, but in first-encountered habit order, which can
differ. -/
theorem claim3_streaks_perm :
    ∀ (l l' : List DayRecord) (f : String → String),
    l.Perm l' →
    (l.map (fun r => r.date)).Nodup →
    (∀ r ∈ l, ∀ h ∈ r.habits, h.name = f h.id) →
    (calculateStreaks l).Perm (calculateStreaks l') := by
  intro l l' f hperm hd hn
  by_cases hl : l = []
  · subst hl
    rw [hperm.symm.eq_nil]
  · have hl' : l' ≠ [] := by
      intro h
      subst h
      exact hl hperm.eq_nil
    unfold calculateStreaks
    rw [if_neg (by simpa using hl), if_neg (by simpa using hl')]
    rw [sortRecordsByDate_eq_of_perm l l' hperm hd]
    exact (habitUniverse_perm l l' f hperm hn).map _

/-- First record of the claim C3 example: habit h1 only. -/
def claim3A : DayRecord :=
  { date := ⟨2024, 1, 1⟩, completionRate := 100, achievement := .gold,
    habits := [{ id := "h1", name := "A", completed := true }], timestamp := none }

/-- Second record of the claim C3 example: habit h2 only, a later
date. -/
def claim3B : DayRecord :=
  { date := ⟨2024, 1, 2⟩, completionRate := 100, achievement := .gold,
    habits := [{ id := "h2", name := "B", completed := true }], timestamp := none }

/-- Name assignment of the claim C3 example: h1 is named A and every
other id is named B. -/
def claim3F : String → String := fun k => if k = "h1" then "A" else "B"

/-- C3 counterexample: shuffling the input does not yield identical
output.  The two orders of the same two records produce the same
StreakData rows in different order, because the output follows the
first-encountered order of habit ids over the unsorted input. -/
theorem claim3_cex :
    ([claim3A, claim3B] : List DayRecord).Perm [claim3B, claim3A] ∧
    calculateStreaks [claim3A, claim3B] ≠ calculateStreaks [claim3B, claim3A] := by
  constructor
  · exact List.Perm.swap claim3B claim3A []
  · decide

/-- Closed witness for the amended claim C3 at a concrete input. -/
theorem claim3_streaks_perm_witness :
    ([claim3A, claim3B] : List DayRecord).Perm [claim3B, claim3A] ∧
    (([claim3A, claim3B] : List DayRecord).map (fun r => r.date)).Nodup ∧
    (∀ r ∈ ([claim3A, claim3B] : List DayRecord), ∀ h ∈ r.habits,
      h.name = claim3F h.id) ∧
    (calculateStreaks [claim3A, claim3B]).Perm (calculateStreaks [claim3B, claim3A]) := by
  have hperm : ([claim3A, claim3B] : List DayRecord).Perm [claim3B, claim3A] :=
    List.Perm.swap claim3B claim3A []
  refine ⟨hperm, by decide, by decide, ?_⟩
  exact claim3_streaks_perm [claim3A, claim3B] [claim3B, claim3A] claim3F
    hperm (by decide) (by decide)

/-- First-encountered-order deduplication of a list: each element keeps
its first occurrence and later duplicates are dropped. -/
def firstDedup {α : Type} [DecidableEq α] : List α → List α
  | [] => []
  | a :: l => a :: firstDedup (l.filter (fun x => decide (x ≠ a)))
termination_by l => l.length
decreasing_by
  simp only [List.length_cons]
  exact Nat.lt_succ_of_le (List.length_filter_le _ _)

theorem mem_firstDedup_aux {α : Type} [DecidableEq α] :
    ∀ (n : Nat) (l : List α), l.length ≤ n → ∀ a, (a ∈ firstDedup l ↔ a ∈ l) := by
  intro n
  induction n with
  | zero =>
    intro l hl a
    have : l = [] := List.eq_nil_of_length_eq_zero (by omega)
    subst this
    simp [firstDedup]
  | succ m ih =>
    intro l hl a
    cases l with
    | nil => simp [firstDedup]
    | cons b t =>
      rw [firstDedup]
      simp only [List.mem_cons]
      rw [ih (t.filter (fun x => decide (x ≠ b)))
        (le_trans (List.length_filter_le _ _) (by simpa using hl)) a]
      by_cases hab : a = b
      · simp [hab]
      · simp [hab, List.mem_filter]

theorem mem_firstDedup {α : Type} [DecidableEq α] (l : List α) (a : α) :
    a ∈ firstDedup l ↔ a ∈ l :=
  mem_firstDedup_aux l.length l le_rfl a

theorem firstDedup_append_singleton_aux {α : Type} [DecidableEq α] :
    ∀ (n : Nat) (l : List α), l.length ≤ n → ∀ a : α,
    firstDedup (l ++ [a]) = if a ∈ l then firstDedup l else firstDedup l ++ [a] := by
  intro n
  induction n with
  | zero =>
    intro l hl a
    have : l = [] := List.eq_nil_of_length_eq_zero (by omega)
    subst this
    simp [firstDedup]
  | succ m ih =>
    intro l hl a
    cases l with
    | nil => simp [firstDedup]
    | cons b t =>
      rw [List.cons_append, firstDedup, List.filter_append]
      by_cases hab : a = b
      · subst hab
        rw [show List.filter (fun x => decide (x ≠ a)) [a] = [] by simp]
        rw [List.append_nil, if_pos (List.mem_cons_self _ _)]
        rw [firstDedup]
      · rw [show List.filter (fun x => decide (x ≠ b)) [a] = [a] by simp [hab]]
        rw [ih (t.filter (fun x => decide (x ≠ b)))
          (le_trans (List.length_filter_le _ _) (by simpa using hl)) a]
        have hmem : a ∈ t.filter (fun x => decide (x ≠ b)) ↔ a ∈ t := by
          simp [List.mem_filter, hab]
        by_cases hat : a ∈ t
        · rw [if_pos (hmem.mpr hat), if_pos (by simp [hat])]
          rw [firstDedup]
        · rw [if_neg (fun hc => hat (hmem.mp hc)),
            if_neg (by simp [hat, hab])]
          rw [firstDedup]
          simp

theorem firstDedup_append_singleton {α : Type} [DecidableEq α] (l : List α) (a : α) :
    firstDedup (l ++ [a]) = if a ∈ l then firstDedup l else firstDedup l ++ [a] :=
  firstDedup_append_singleton_aux l.length l le_rfl a

/-- Keys of the week-bucket accumulator. -/
def keysW (m : List (String × ℚ × Nat)) : List String := m.map (fun e => e.1)

theorem upsertWeek_keys (k : String) (rate : ℚ) : ∀ m : List (String × ℚ × Nat),
    keysW (upsertWeek m k rate) =
      if k ∈ keysW m then keysW m else keysW m ++ [k] := by
  intro m
  induction m with
  | nil => simp [upsertWeek, keysW]
  | cons q rest ih =>
    obtain ⟨k', t', c'⟩ := q
    by_cases hk : k' = k
    · subst hk
      simp [upsertWeek, keysW]
    · simp only [upsertWeek, if_neg hk, keysW, List.map_cons] at ih ⊢
      rw [ih]
      by_cases hm : k ∈ List.map (fun e => e.1) rest
      · rw [if_pos hm, if_pos (by simp [hm])]
      · rw [if_neg hm, if_neg (by simp [hm, Ne.symm hk])]
        simp

theorem upsertWeek_keys_nodup (k : String) (rate : ℚ) (m : List (String × ℚ × Nat))
    (h : (keysW m).Nodup) : (keysW (upsertWeek m k rate)).Nodup := by
  rw [upsertWeek_keys]
  split
  · exact h
  · next hout =>
    rw [List.nodup_append]
    exact ⟨h, List.nodup_singleton k, by simpa [List.disjoint_singleton] using hout⟩

theorem upsertWeek_mem (k : String) (rate : ℚ) :
    ∀ m : List (String × ℚ × Nat), (keysW m).Nodup →
    ∀ e ∈ upsertWeek m k rate,
      (e ∈ m ∧ e.1 ≠ k) ∨
      (∃ t c, (k, t, c) ∈ m ∧ e = (k, t + rate, c + 1)) ∨
      (k ∉ keysW m ∧ e = (k, rate, 1)) := by
  intro m
  induction m with
  | nil =>
    intro _ e he
    cases he with
    | head => exact Or.inr (Or.inr ⟨by simp [keysW], rfl⟩)
    | tail _ hmem => cases hmem
  | cons q rest ih =>
    obtain ⟨k', t', c'⟩ := q
    intro hnd e he
    have hndrest : (keysW rest).Nodup := by
      simp only [keysW, List.map_cons, List.nodup_cons] at hnd
      exact hnd.2
    by_cases hk : k' = k
    · subst hk
      simp only [upsertWeek, if_pos rfl] at he
      cases he with
      | head => exact Or.inr (Or.inl ⟨t', c', List.mem_cons_self _ _, rfl⟩)
      | tail _ hmem =>
        have hknotin : k' ∉ keysW rest := by
          simp only [keysW, List.map_cons, List.nodup_cons] at hnd
          exact hnd.1
        left
        refine ⟨List.mem_cons_of_mem _ hmem, ?_⟩
        intro hek
        apply hknotin
        rw [← hek]
        exact List.mem_map_of_mem _ hmem
    · simp only [upsertWeek, if_neg hk] at he
      cases he with
      | head => exact Or.inl ⟨List.mem_cons_self _ _, by simpa using hk⟩
      | tail _ hmem =>
        rcases ih hndrest e hmem with ⟨hin, hne⟩ | ⟨t, c, hin, heq⟩ | ⟨hout, heq⟩
        · exact Or.inl ⟨List.mem_cons_of_mem _ hin, hne⟩
        · exact Or.inr (Or.inl ⟨t, c, List.mem_cons_of_mem _ hin, heq⟩)
        · refine Or.inr (Or.inr ⟨?_, heq⟩)
          simp only [keysW, List.map_cons, List.mem_cons]
          rintro (hc | hc)
          · exact hk hc.symm
          · exact hout (by simpa [keysW] using hc)

/-- Week-bucket accumulator of getMonthlyPatterns after scanning the
whole input. -/
def weekFold (records : List DayRecord) : List (String × ℚ × Nat) :=
  records.foldl (fun m r => upsertWeek m (weekKey r.date) r.completionRate) []

theorem getMonthlyPatterns_eq (records : List DayRecord) :
    getMonthlyPatterns records = (weekFold records).map (fun e =>
      { week := e.1,
        averageCompletion := if 0 < e.2.2 then e.2.1 / (e.2.2 : ℚ) else 0,
        totalDays := e.2.2 }) := rfl

/-- Input days contributing to the bucket keyed k. -/
def weekGroup (records : List DayRecord) (k : String) : List DayRecord :=
  records.filter (fun r => decide (weekKey r.date = k))

theorem weekGroup_append_singleton (rs : List DayRecord) (r : DayRecord) (k : String) :
    weekGroup (rs ++ [r]) k =
      weekGroup rs k ++ (if weekKey r.date = k then [r] else []) := by
  simp only [weekGroup, List.filter_append]
  congr 1
  by_cases h : weekKey r.date = k
  · simp [h]
  · simp [h]

theorem weekGroup_eq_nil (rs : List DayRecord) (k : String)
    (h : k ∉ rs.map (fun r => weekKey r.date)) : weekGroup rs k = [] := by
  unfold weekGroup
  rw [List.filter_eq_nil_iff]
  intro r hr
  simp only [decide_eq_true_eq]
  intro hk
  exact h (by rw [← hk]; exact List.mem_map_of_mem _ hr)

theorem weekFold_spec (records : List DayRecord) :
    (keysW (weekFold records)).Nodup ∧
    keysW (weekFold records) = firstDedup (records.map (fun r => weekKey r.date)) ∧
    ∀ e ∈ weekFold records,
      e.2.1 = ((weekGroup records e.1).map (fun r => r.completionRate)).sum ∧
      e.2.2 = (weekGroup records e.1).length := by
  induction records using List.reverseRecOn with
  | nil =>
    refine ⟨by simp [weekFold, keysW], by simp [weekFold, keysW, firstDedup], ?_⟩
    intro e he
    simp [weekFold] at he
  | append_singleton rs r ih =>
    obtain ⟨ihnd, ihkeys, ihent⟩ := ih
    have hfold : weekFold (rs ++ [r]) =
        upsertWeek (weekFold rs) (weekKey r.date) r.completionRate := by
      simp [weekFold, List.foldl_append]
    have hkeys_mem : (weekKey r.date ∈ keysW (weekFold rs)) ↔
        weekKey r.date ∈ rs.map (fun r' => weekKey r'.date) := by
      rw [ihkeys, mem_firstDedup]
    refine ⟨?_, ?_, ?_⟩
    · rw [hfold]
      exact upsertWeek_keys_nodup _ _ _ ihnd
    · rw [hfold, upsertWeek_keys]
      rw [show (rs ++ [r]).map (fun r' => weekKey r'.date)
          = rs.map (fun r' => weekKey r'.date) ++ [weekKey r.date] by simp]
      rw [firstDedup_append_singleton]
      by_cases hin : weekKey r.date ∈ keysW (weekFold rs)
      · rw [if_pos hin, if_pos (hkeys_mem.mp hin), ihkeys]
      · rw [if_neg hin, if_neg (fun hc => hin (hkeys_mem.mpr hc)), ihkeys]
    · intro e he
      rw [hfold] at he
      rcases upsertWeek_mem _ _ _ ihnd e he with ⟨hin, hne⟩ | ⟨t, c, hin, heq⟩ | ⟨hout, heq⟩
      · obtain ⟨h1, h2⟩ := ihent e hin
        rw [weekGroup_append_singleton, if_neg (fun hc => hne hc.symm)]
        simpa using ⟨h1, h2⟩
      · obtain ⟨h1, h2⟩ := ihent (weekKey r.date, t, c) hin
        simp only at h1 h2
        subst heq
        rw [weekGroup_append_singleton, if_pos rfl]
        constructor
        · simp only [List.map_append, List.sum_append]
          rw [← h1]
          simp
        · rw [List.length_append, ← h2]
          simp
      · subst heq
        have hout' : weekKey r.date ∉ rs.map (fun r' => weekKey r'.date) :=
          fun hc => hout (hkeys_mem.mpr hc)
        rw [weekGroup_append_singleton, if_pos rfl, weekGroup_eq_nil rs _ hout']
        simp

/-- C9 (amended): getMonthlyPatterns produces one bucket per distinct
formatted week key (the MMM dd rendering of the week's Sunday start and
Saturday end, with no year), in first-encountered order over the input;
each bucket reports the count of days whose week key matches and the
arithmetic mean of their completion rates; and two days of the same
calendar week (same week-start serial day) always share a bucket, but
the converse fails because distinct weeks of different years can share
the formatted key. -/
theorem claim9_monthly_patterns :
    ∀ records : List DayRecord,
    ((getMonthlyPatterns records).map (fun p => p.week) =
        firstDedup (records.map (fun r => weekKey r.date))) ∧
    (∀ p ∈ getMonthlyPatterns records,
        0 < p.totalDays ∧
        p.totalDays = (weekGroup records p.week).length ∧
        p.averageCompletion =
          ((weekGroup records p.week).map (fun r => r.completionRate)).sum /
            ((weekGroup records p.week).length : ℚ)) ∧
    (∀ r1 ∈ records, ∀ r2 ∈ records,
        weekStartNum r1.date = weekStartNum r2.date →
        weekKey r1.date = weekKey r2.date) := by
  intro records
  obtain ⟨hnd, hkeys, hent⟩ := weekFold_spec records
  refine ⟨?_, ?_, ?_⟩
  · rw [getMonthlyPatterns_eq, List.map_map]
    simpa [keysW] using hkeys
  · intro p hp
    rw [getMonthlyPatterns_eq] at hp
    obtain ⟨e, he, rfl⟩ := List.mem_map.mp hp
    obtain ⟨h1, h2⟩ := hent e he
    dsimp only
    have hpos : 0 < e.2.2 := by
      rw [h2]
      have hk : e.1 ∈ keysW (weekFold records) := List.mem_map_of_mem _ he
      rw [hkeys, mem_firstDedup] at hk
      obtain ⟨r, hr, hkr⟩ := List.mem_map.mp hk
      have hrg : r ∈ weekGroup records e.1 := by
        unfold weekGroup
        rw [List.mem_filter]
        exact ⟨hr, by simp [hkr]⟩
      exact List.length_pos.mpr (List.ne_nil_of_mem hrg)
    refine ⟨hpos, h2, ?_⟩
    rw [if_pos hpos, h1, h2]
  · intro r1 _ r2 _ h
    unfold weekKey startOfWeekDate endOfWeekDate
    rw [h]

/-- Day in the calendar week of Sunday 2021-01-03. -/
def claim9A : DayRecord :=
  { date := ⟨2021, 1, 3⟩, completionRate := 100, achievement := .gold,
    habits := [], timestamp := none }

/-- Day in the calendar week of Sunday 2027-01-03, a different calendar
week whose start and end share month and day with the week of
claim9A. -/
def claim9B : DayRecord :=
  { date := ⟨2027, 1, 3⟩, completionRate := 0, achievement := .failed,
    habits := [], timestamp := none }

/-- Single bucket produced for the two days of the claim C9 example. -/
def claim9P : MonthlyPattern :=
  { week := "Jan 03 - Jan 09", averageCompletion := 50, totalDays := 2 }

theorem claim9_eval :
    getMonthlyPatterns [claim9A, claim9B] = [claim9P] := by
  have hk1 : weekKey claim9A.date = "Jan 03 - Jan 09" := by decide
  have hk2 : weekKey claim9B.date = "Jan 03 - Jan 09" := by decide
  rw [getMonthlyPatterns_eq]
  have hfold : weekFold [claim9A, claim9B] = [("Jan 03 - Jan 09", (100 : ℚ) + 0, 2)] := by
    unfold weekFold
    rw [List.foldl_cons, List.foldl_cons, List.foldl_nil]
    rw [show upsertWeek [] (weekKey claim9A.date) claim9A.completionRate =
        [("Jan 03 - Jan 09", (100 : ℚ), 1)] by rw [hk1]; rfl]
    rw [show upsertWeek [("Jan 03 - Jan 09", (100 : ℚ), 1)]
          (weekKey claim9B.date) claim9B.completionRate =
        [("Jan 03 - Jan 09", (100 : ℚ) + 0, 2)] by rw [hk2]; rfl]
  rw [hfold]
  simp only [List.map_cons, List.map_nil]
  simp [claim9P]
  norm_num

/-- C9 counterexample: two days of different calendar weeks (their
week-start serial days differ by six years) land in the same single
bucket, because the week key drops the year; under the claim they would
occupy two distinct buckets. -/
theorem claim9_cex :
    weekStartNum claim9A.date ≠ weekStartNum claim9B.date ∧
    (getMonthlyPatterns [claim9A, claim9B]).map (fun p => (p.week, p.totalDays)) =
      [("Jan 03 - Jan 09", 2)] := by
  refine ⟨by decide, ?_⟩
  rw [claim9_eval]
  rfl

/-- Closed witness for the amended claim C9 at a concrete input. -/
theorem claim9_monthly_patterns_witness :
    claim9P ∈ getMonthlyPatterns [claim9A, claim9B] ∧
    (0 < claim9P.totalDays ∧
     claim9P.totalDays = (weekGroup [claim9A, claim9B] claim9P.week).length ∧
     claim9P.averageCompletion =
       ((weekGroup [claim9A, claim9B] claim9P.week).map (fun r => r.completionRate)).sum /
         ((weekGroup [claim9A, claim9B] claim9P.week).length : ℚ)) := by
  have hmem : claim9P ∈ getMonthlyPatterns [claim9A, claim9B] := by
    rw [claim9_eval]
    exact List.mem_singleton.mpr rfl
  exact ⟨hmem, (claim9_monthly_patterns [claim9A, claim9B]).2.1 claim9P hmem⟩
